import Mathlib

/-!
Verification of the spatial partitioning and indexing core of the `mlsgpu`
surface-reconstruction pipeline, against its natural-language specification.

The development shallowly embeds the relevant C++ sources:

* `src/bucket.h` — `Bucket::Range`, `Bucket::internal::RangeCollector`,
  `Bucket::DensityError` (the header is present; `bucket.cpp`, which holds
  `Range::append`, `Node`, `forEachNode` and the recursive bucketer, is not
  part of the provided sources, so those parts are modelled from the
  specification and the repository's own tests, as indicated by doc comments).
* `src/splattree.cpp` — `SplatTree::makeCode` and the `SplatTree` constructor
  (fully present; `splattree.h`, `grid.h` and `errors.h` are absent, so the
  widths of `size_type`, the `Grid` accessors and `MLSGPU_ASSERT` are modelled
  as documented below).

Machine integers are embedded as `ℕ` with explicit `% 2^w` where overflow
matters; `float` data (splat positions, radii, grid reference and spacing) is
embedded as `ℚ`; fallible code returns `Except`.
-/

/-- Three-component vectors, used for coordinates and extents. -/
abbrev V3 (α : Type) : Type := Fin 3 → α

/-- Decidable equality for `Except`, needed to evaluate concrete runs. -/
def Except.decEq {ε α : Type} [DecidableEq ε] [DecidableEq α] :
    (a b : Except ε α) → Decidable (a = b)
  | .ok a, .ok b =>
    if h : a = b then isTrue (by rw [h]) else isFalse (fun hh => h (by injection hh))
  | .error a, .error b =>
    if h : a = b then isTrue (by rw [h]) else isFalse (fun hh => h (by injection hh))
  | .ok _, .error _ => isFalse (fun hh => by injection hh)
  | .error _, .ok _ => isFalse (fun hh => by injection hh)

instance {ε α : Type} [DecidableEq ε] [DecidableEq α] : DecidableEq (Except ε α) :=
  Except.decEq

namespace Bucket

/-- Largest value of `Bucket::Range::size_type` (`std::tr1::uint32_t`),
`0xFFFFFFFF`. -/
def sizeTypeMax : ℕ := 4294967295

/-- Embedding of `Bucket::Range` (bucket.h lines 50–85): a sequential range of
splats from one input file.  `scan` is the file index (`uint32_t`), `size` the
number of splats (`uint32_t`), `start` the first splat index (`uint64_t`).
The invariant `start + size - 1` fits in 64 bits is maintained by the
constructors; indices are embedded as plain naturals. -/
structure Range where
  scan : ℕ
  size : ℕ
  start : ℕ
deriving DecidableEq

/-- Embedding of the default constructor `Range()`: an empty scan range
(`size = 0`). -/
def Range.empty : Range := ⟨0, 0, 0⟩

/-- Embedding of `Range(scan_type scan, index_type splat)`: a range holding
exactly one splat. -/
def Range.single (scan splat : ℕ) : Range := ⟨scan, 1, splat⟩

/-- Modelled from the spec: `bucket.cpp` (which defines `Range::append`) is not
among the provided sources.  The spec (§4.1) says append succeeds exactly when
the element is the immediate successor and the size limit is not hit, and that
appending to an empty range initializes it; the repository test
`TestRange::testAppendMiddle` additionally requires that an element already
inside the range is accepted without change.  The model returns the C++
`bool` result together with the updated range (the C++ method mutates
`*this`). -/
def Range.append (r : Range) (scan splat : ℕ) : Bool × Range :=
  if r.size = 0 then (true, ⟨scan, 1, splat⟩)
  else if scan = r.scan ∧ r.start ≤ splat ∧ splat < r.start + r.size then (true, r)
  else if scan = r.scan ∧ splat = r.start + r.size ∧ r.size < sizeTypeMax then
    (true, ⟨r.scan, r.size + 1, r.start⟩)
  else (false, r)

/-- Splat identifiers fed to a collector: a `(scan, splat index)` pair. -/
abbrev SplatId : Type := ℕ × ℕ

/-- Embedding of `Bucket::internal::RangeCollector::append` / `flush` /
destructor (bucket.h lines 199–225): process a list of splat identifiers,
emitting a completed range whenever the buffered range refuses to extend, and
flush the buffer at the end (the destructor calls `flush`). -/
def collectGo (cur : Range) : List SplatId → List Range
  | [] => if cur.size > 0 then [cur] else []
  | id :: rest =>
    match cur.append id.1 id.2 with
    | (true, cur') => collectGo cur' rest
    | (false, _) => cur :: collectGo (Range.single id.1 id.2) rest

/-- Run a fresh `RangeCollector` over a list of splat identifiers and destroy
it (which flushes), returning the emitted ranges. -/
def runCollector (ids : List SplatId) : List Range :=
  collectGo Range.empty ids

/-- Expansion of a single range into the splat identifiers it covers. -/
def Range.expand (r : Range) : List SplatId :=
  (List.range r.size).map (fun j => (r.scan, r.start + j))

/-- Expansion of a range list into the splat identifiers it covers. -/
def expandRanges (rs : List Range) : List SplatId :=
  rs.flatMap Range.expand

/-- Claim C5 (as written) is refuted by `TestRange::testAppendMiddle`
(test_bucket.cpp lines 133–144): on the range `(scan 4, start 0x123456781234,
size 0x10000)`, `append(4, 0x12345678FFFF)` returns `true` although
`0x12345678FFFF ≠ start + size`, contradicting the claimed
«returns true if and only if `s == scan`, `i == start + size`, and
`size < MAX_UINT32`». -/
theorem Range.append_middle_counterexample :
    (Range.append ⟨4, 0x10000, 0x123456781234⟩ 4 0x12345678FFFF).1 = true
      ∧ ¬((0x12345678FFFF : ℕ) = 0x123456781234 + 0x10000) := by
  constructor
  · decide
  · decide

/-- Claim C5, amended: `append(s, i)` on a `Range` with current state
`(scan, start, size)` returns `true` iff the range is empty (`size = 0`, in
which case it is initialized to `(s, i, 1)`), or `s = scan` and `i` already
lies inside `[start, start + size)` (no change), or `s = scan`,
`i = start + size` and `size < 2^32 - 1` (the range is extended); whenever it
returns `false` the fields are unchanged. -/
theorem Range.append_spec (r : Range) (s i : ℕ) :
    ((r.append s i).1 = true ↔
        r.size = 0
          ∨ (s = r.scan ∧ r.start ≤ i ∧ i < r.start + r.size)
          ∨ (s = r.scan ∧ i = r.start + r.size ∧ r.size < sizeTypeMax))
      ∧ ((r.append s i).1 = false → (r.append s i).2 = r)
      ∧ (r.size = 0 → r.append s i = (true, ⟨s, 1, i⟩)) := by
  unfold Range.append
  by_cases h0 : r.size = 0
  · simp [h0]
  · by_cases h1 : s = r.scan ∧ r.start ≤ i ∧ i < r.start + r.size
    · simp [h0, h1]
    · by_cases h2 : s = r.scan ∧ i = r.start + r.size ∧ r.size < sizeTypeMax
      · simp [h0, h1, h2]
      · simp [h0, h1, h2]

/-- Witness for the amended claim C5: appending `(3, 6)` to an empty range
succeeds and initializes it, by the theorem's third conjunct. -/
theorem Range.append_spec_witness :
    Range.empty.size = 0 ∧ Range.empty.append 3 6 = (true, ⟨3, 1, 6⟩) :=
  ⟨rfl, (Range.append_spec Range.empty 3 6).2.2 rfl⟩

/-- Claim C8: feeding the splat identifiers
`(3,5),(3,6),(3,6),(4,0x123456781234),(5,2),(5,4),(5,5)` to a fresh
`RangeCollector` and then destroying it (which flushes) emits exactly the four
ranges `(3,5,2)`, `(4,0x123456781234,1)`, `(5,2,1)`, `(5,4,2)` in that order,
matching `TestRangeCollector::testSimple`. -/
theorem runCollector_scenario :
    runCollector [(3, 5), (3, 6), (3, 6), (4, 0x123456781234), (5, 2), (5, 4), (5, 5)]
      = [⟨3, 2, 5⟩, ⟨4, 1, 0x123456781234⟩, ⟨5, 1, 2⟩, ⟨5, 2, 4⟩] := by
  decide

end Bucket

/-- Error conditions raised through `MLSGPU_ASSERT` in splattree.cpp.
`errors.h` is absent from the provided sources; the assertion macro is
modelled as throwing its exception argument when the condition fails, which is
how splattree.cpp and the spec's error taxonomy (§6) use it. -/
inductive SplatTreeError : Type
  | rangeError
  | lengthError
deriving DecidableEq

/-- Embedding of `SplatTree`: the flattened octree arrays produced by the
constructor (splattree.cpp lines 58–157). -/
structure SplatTree where
  levelStart : List ℕ
  start : List ℕ
  ids : List ℕ
deriving DecidableEq

namespace SplatTree

/-- Width of `SplatTree::size_type` in bits.  `splattree.h` is absent from the
provided sources; the type is modelled as a 32-bit unsigned integer,
consistent with the `1U` shift arithmetic used for `levelStart` in the
constructor. -/
def wordBits : ℕ := 32

/-- Largest value of `SplatTree::size_type`, `2^32 - 1`. -/
def sizeTypeMax : ℕ := 2 ^ wordBits - 1

/-- Fuel-indexed bit length: `bitLenGo f n` is the number of binary digits of
`n`, provided `n < f`. -/
def bitLenGo : ℕ → ℕ → ℕ
  | 0, _ => 0
  | f + 1, n => if n = 0 then 0 else bitLenGo f (n / 2) + 1

/-- Number of binary digits of `n` (0 for 0). -/
def bitLen (n : ℕ) : ℕ := bitLenGo (n + 1) n

theorem bitLenGo_eq_size (f : ℕ) : ∀ n : ℕ, n < f → bitLenGo f n = Nat.size n := by
  induction f with
  | zero => intro n h; omega
  | succ f ih =>
    intro n h
    by_cases h0 : n = 0
    · simp [bitLenGo, h0, Nat.size_zero]
    · have hdiv : n / 2 < f := by omega
      have hrec : Nat.size (n / 2) + 1 = Nat.size n := by
        conv_rhs => rw [← Nat.bit_decomp n]
        rw [Nat.size_bit]
        · rw [Nat.div2_val]
        · rw [Nat.bit_decomp]; exact h0
      simp only [bitLenGo, h0, if_false, ih (n / 2) hdiv, hrec]

theorem bitLen_eq_size (n : ℕ) : bitLen n = Nat.size n :=
  bitLenGo_eq_size (n + 1) n (Nat.lt_succ_self n)

theorem bitLen_zero : bitLen 0 = 0 := by simp [bitLen_eq_size, Nat.size_zero]

theorem bitLen_div2 (n : ℕ) (h : n ≠ 0) : bitLen (n / 2) + 1 = bitLen n := by
  rw [bitLen_eq_size, bitLen_eq_size]
  conv_rhs => rw [← Nat.bit_decomp n]
  rw [Nat.size_bit]
  · rw [Nat.div2_val]
  · rw [Nat.bit_decomp]; exact h

theorem bitLen_le_iff (m k : ℕ) : bitLen m ≤ k ↔ m < 2 ^ k := by
  rw [bitLen_eq_size]; exact Nat.size_le

theorem bitLen_pos (n : ℕ) (h : n ≠ 0) : 1 ≤ bitLen n := by
  by_contra hc
  have : bitLen n ≤ 0 := by omega
  rw [bitLen_le_iff] at this
  omega

/-- Embedding of the bit-interleaving loop of `SplatTree::makeCode`
(splattree.cpp lines 43–53), with fuel for structural termination: returns the
final `(shift, ans)` pair.  The accumulation into `ans` is reduced modulo
`2^wordBits` as in the C++ unsigned arithmetic. -/
def makeCodeGo : ℕ → ℕ → ℕ → ℕ → ℕ → ℕ → ℕ × ℕ
  | 0, _, _, _, shift, ans => (shift, ans)
  | fuel + 1, x, y, z, shift, ans =>
    if x = 0 ∧ y = 0 ∧ z = 0 then (shift, ans)
    else
      makeCodeGo fuel (x / 2) (y / 2) (z / 2) (shift + 3)
        ((ans + (x % 2 + 2 * (y % 2) + 4 * (z % 2)) * 2 ^ shift) % 2 ^ wordBits)

/-- Embedding of `SplatTree::makeCode` (splattree.cpp lines 41–56): interleave
the bits of the three coordinates; afterwards `MLSGPU_ASSERT(shift <
std::numeric_limits<size_type>::digits, std::range_error)` rejects results
that would not fit in `size_type`.  The fuel `x + y + z + 1` strictly exceeds
the number of loop iterations. -/
def makeCode (x y z : ℕ) : Except SplatTreeError ℕ :=
  let r := makeCodeGo (x + y + z + 1) x y z 0 0
  if r.1 < wordBits then .ok r.2 else .error .rangeError

/-- Reference bit-interleaving (least-significant first), fuel-indexed. -/
def ilvGo : ℕ → ℕ → ℕ → ℕ → ℕ
  | 0, _, _, _ => 0
  | f + 1, x, y, z =>
    if x = 0 ∧ y = 0 ∧ z = 0 then 0
    else (x % 2 + 2 * (y % 2) + 4 * (z % 2)) + 8 * ilvGo f (x / 2) (y / 2) (z / 2)

/-- Reference bit-interleaving of three coordinates: bit `3k` is bit `k` of
`x`, bit `3k+1` is bit `k` of `y`, bit `3k+2` is bit `k` of `z`. -/
def ilv (x y z : ℕ) : ℕ := ilvGo (x + y + z + 1) x y z

theorem sumHalves_lt {x y z : ℕ} (h : ¬(x = 0 ∧ y = 0 ∧ z = 0)) :
    x / 2 + y / 2 + z / 2 < x + y + z := by omega

theorem ilvGo_fuel (f : ℕ) : ∀ g x y z : ℕ, x + y + z < f → x + y + z < g →
    ilvGo f x y z = ilvGo g x y z := by
  induction f with
  | zero => intro g x y z h _; omega
  | succ f ih =>
    intro g x y z hf hg
    cases g with
    | zero => omega
    | succ g =>
      by_cases h0 : x = 0 ∧ y = 0 ∧ z = 0
      · simp [ilvGo, h0]
      · have hlt := sumHalves_lt h0
        simp only [ilvGo, h0, if_false]
        rw [ih g (x / 2) (y / 2) (z / 2) (by omega) (by omega)]

theorem ilv_zero : ilv 0 0 0 = 0 := by simp [ilv, ilvGo]

theorem ilv_step (x y z : ℕ) (h : ¬(x = 0 ∧ y = 0 ∧ z = 0)) :
    ilv x y z = (x % 2 + 2 * (y % 2) + 4 * (z % 2)) + 8 * ilv (x / 2) (y / 2) (z / 2) := by
  have hlt := sumHalves_lt h
  show ilvGo (x + y + z + 1) x y z = _
  cases hxyz : x + y + z with
  | zero => omega
  | succ n =>
    simp only [ilvGo, h, if_false]
    congr 1
    congr 1
    exact ilvGo_fuel (n + 1) (x / 2 + y / 2 + z / 2 + 1) (x / 2) (y / 2) (z / 2)
      (by omega) (by omega)

theorem max3_div2 (x y z : ℕ) : max x (max y z) / 2 = max (x / 2) (max (y / 2) (z / 2)) := by
  omega

theorem makeCodeGo_shift (f : ℕ) : ∀ x y z s a : ℕ, x + y + z < f →
    (makeCodeGo f x y z s a).1 = s + 3 * bitLen (max x (max y z)) := by
  induction f with
  | zero => intro x y z s a h; omega
  | succ f ih =>
    intro x y z s a h
    by_cases h0 : x = 0 ∧ y = 0 ∧ z = 0
    · obtain ⟨hx, hy, hz⟩ := h0
      subst hx; subst hy; subst hz
      simp [makeCodeGo, bitLen_zero]
    · have hmax : max x (max y z) ≠ 0 := by omega
      have hlt := sumHalves_lt h0
      simp only [makeCodeGo, h0, if_false]
      rw [ih (x / 2) (y / 2) (z / 2) (s + 3) _ (by omega)]
      rw [← max3_div2]
      have hd := bitLen_div2 (max x (max y z)) hmax
      omega

theorem makeCodeGo_val (f : ℕ) : ∀ x y z s a : ℕ, x + y + z < f → a < 2 ^ s →
    s + 3 * bitLen (max x (max y z)) < 32 →
    (makeCodeGo f x y z s a).2 = a + 2 ^ s * ilv x y z := by
  induction f with
  | zero => intro x y z s a h _ _; omega
  | succ f ih =>
    intro x y z s a h ha hs
    by_cases h0 : x = 0 ∧ y = 0 ∧ z = 0
    · obtain ⟨hx, hy, hz⟩ := h0
      subst hx; subst hy; subst hz
      simp [makeCodeGo, ilv_zero]
    · have hmax : max x (max y z) ≠ 0 := by omega
      have hbl := bitLen_pos _ hmax
      have hs3 : s + 3 ≤ 32 := by omega
      have hlt := sumHalves_lt h0
      have hdlt : x % 2 + 2 * (y % 2) + 4 * (z % 2) ≤ 7 := by omega
      have hstep : a + (x % 2 + 2 * (y % 2) + 4 * (z % 2)) * 2 ^ s < 2 ^ (s + 3) := by
        have hmul : (x % 2 + 2 * (y % 2) + 4 * (z % 2)) * 2 ^ s ≤ 7 * 2 ^ s :=
          Nat.mul_le_mul_right _ hdlt
        calc a + (x % 2 + 2 * (y % 2) + 4 * (z % 2)) * 2 ^ s
            < 2 ^ s + 7 * 2 ^ s := add_lt_add_of_lt_of_le ha hmul
          _ = 2 ^ (s + 3) := by ring
      have hmod : (a + (x % 2 + 2 * (y % 2) + 4 * (z % 2)) * 2 ^ s) % 2 ^ wordBits
          = a + (x % 2 + 2 * (y % 2) + 4 * (z % 2)) * 2 ^ s := by
        apply Nat.mod_eq_of_lt
        calc a + (x % 2 + 2 * (y % 2) + 4 * (z % 2)) * 2 ^ s
            < 2 ^ (s + 3) := hstep
          _ ≤ 2 ^ wordBits := Nat.pow_le_pow_right (by omega) (by unfold wordBits; omega)
      have hbl2 := bitLen_div2 (max x (max y z)) hmax
      simp only [makeCodeGo, h0, if_false, hmod]
      rw [ih (x / 2) (y / 2) (z / 2) (s + 3) _ (by omega) hstep
        (by rw [← max3_div2]; omega)]
      rw [ilv_step x y z h0]
      have h8 : 2 ^ (s + 3) = 2 ^ s * 8 := by ring
      rw [h8]
      ring

theorem makeCode_eq_ok (x y z : ℕ) (h : 3 * bitLen (max x (max y z)) < 32) :
    makeCode x y z = .ok (ilv x y z) := by
  unfold makeCode
  have h1 := makeCodeGo_shift (x + y + z + 1) x y z 0 0 (by omega)
  have h2 := makeCodeGo_val (x + y + z + 1) x y z 0 0 (by omega)
    (by simp) (by omega)
  simp only [h1, h2]
  rw [if_pos (by unfold wordBits; omega)]
  simp

theorem makeCode_eq_error (x y z : ℕ) (h : 32 ≤ 3 * bitLen (max x (max y z))) :
    makeCode x y z = .error .rangeError := by
  unfold makeCode
  have h1 := makeCodeGo_shift (x + y + z + 1) x y z 0 0 (by omega)
  simp only [h1]
  rw [if_neg (by unfold wordBits; omega)]

theorem ilvGo_testBit (f : ℕ) : ∀ x y z : ℕ, x + y + z < f → ∀ k : ℕ,
    (ilvGo f x y z).testBit (3 * k) = x.testBit k
      ∧ (ilvGo f x y z).testBit (3 * k + 1) = y.testBit k
      ∧ (ilvGo f x y z).testBit (3 * k + 2) = z.testBit k := by
  induction f with
  | zero => intro x y z h; omega
  | succ f ih =>
    intro x y z h k
    by_cases h0 : x = 0 ∧ y = 0 ∧ z = 0
    · obtain ⟨hx, hy, hz⟩ := h0
      subst hx; subst hy; subst hz
      simp [ilvGo, Nat.zero_testBit]
    · have hlt := sumHalves_lt h0
      simp only [ilvGo, h0, if_false]
      set d := x % 2 + 2 * (y % 2) + 4 * (z % 2) with hd
      set v' := ilvGo f (x / 2) (y / 2) (z / 2) with hv
      have hdiv8 : (d + 8 * v') / 8 = v' := by omega
      have hdiv2 : (d + 8 * v') / 2 / 2 / 2 = v' := by omega
      cases k with
      | zero =>
        refine ⟨?_, ?_, ?_⟩
        · have hm : (d + 8 * v') % 2 = x % 2 := by omega
          simp [Nat.testBit_zero, hm, Nat.mul_zero]
        · have hm : (d + 8 * v') / 2 % 2 = y % 2 := by omega
          simp only [Nat.mul_zero, Nat.zero_add, Nat.testBit_succ, Nat.testBit_zero]
          rw [hm]
        · have hm : (d + 8 * v') / 2 / 2 % 2 = z % 2 := by omega
          simp only [Nat.mul_zero, Nat.zero_add, Nat.testBit_succ, Nat.testBit_zero]
          rw [hm]
      | succ k =>
        have ih3 := ih (x / 2) (y / 2) (z / 2) (by omega) k
        have strip3 : ∀ m : ℕ, (d + 8 * v').testBit (m + 1 + 1 + 1) = v'.testBit m := by
          intro m
          rw [Nat.testBit_succ, Nat.testBit_succ, Nat.testBit_succ, hdiv2]
        have e0 : 3 * (k + 1) = 3 * k + 1 + 1 + 1 := by ring
        have e1 : 3 * (k + 1) + 1 = 3 * k + 1 + 1 + 1 + 1 := by ring
        have e2 : 3 * (k + 1) + 2 = 3 * k + 2 + 1 + 1 + 1 := by ring
        refine ⟨?_, ?_, ?_⟩
        · rw [e0, strip3]
          conv_rhs => rw [Nat.testBit_succ]
          exact ih3.1
        · rw [show 3 * (k + 1) + 1 = 3 * k + 1 + 1 + 1 + 1 by ring,
            show 3 * k + 1 + 1 + 1 + 1 = (3 * k + 1) + 1 + 1 + 1 by ring, strip3]
          conv_rhs => rw [Nat.testBit_succ]
          exact ih3.2.1
        · rw [e2, show 3 * k + 2 + 1 + 1 + 1 = (3 * k + 2) + 1 + 1 + 1 by ring, strip3]
          conv_rhs => rw [Nat.testBit_succ]
          exact ih3.2.2

theorem ilv_testBit (x y z k : ℕ) :
    (ilv x y z).testBit (3 * k) = x.testBit k
      ∧ (ilv x y z).testBit (3 * k + 1) = y.testBit k
      ∧ (ilv x y z).testBit (3 * k + 2) = z.testBit k :=
  ilvGo_testBit (x + y + z + 1) x y z (by omega) k

theorem ilv_inj {x y z x' y' z' : ℕ} (h : ilv x y z = ilv x' y' z') :
    x = x' ∧ y = y' ∧ z = z' := by
  refine ⟨?_, ?_, ?_⟩
  · apply Nat.eq_of_testBit_eq
    intro k
    rw [← (ilv_testBit x y z k).1, ← (ilv_testBit x' y' z' k).1, h]
  · apply Nat.eq_of_testBit_eq
    intro k
    rw [← (ilv_testBit x y z k).2.1, ← (ilv_testBit x' y' z' k).2.1, h]
  · apply Nat.eq_of_testBit_eq
    intro k
    rw [← (ilv_testBit x y z k).2.2, ← (ilv_testBit x' y' z' k).2.2, h]

theorem bitLen_le_ten {m : ℕ} (h : m < 1024) : bitLen m ≤ 10 := by
  rw [bitLen_le_iff]
  omega

/-- Claim C6: for coordinates in the valid range (interleaved result fits in
`size_type`, which holds whenever each coordinate is below `2^10`),
`SplatTree::makeCode` returns the bit-interleaved code — bit `3k` is bit `k`
of `x`, bit `3k+1` is bit `k` of `y`, bit `3k+2` is bit `k` of `z` — and
`makeCode` is injective on such coordinate triples. -/
theorem makeCode_valid_spec (x y z : ℕ) (hx : x < 1024) (hy : y < 1024) (hz : z < 1024) :
    makeCode x y z = .ok (ilv x y z)
      ∧ (∀ k, (ilv x y z).testBit (3 * k) = x.testBit k
          ∧ (ilv x y z).testBit (3 * k + 1) = y.testBit k
          ∧ (ilv x y z).testBit (3 * k + 2) = z.testBit k)
      ∧ (∀ x' y' z', x' < 1024 → y' < 1024 → z' < 1024 →
          makeCode x y z = makeCode x' y' z' → x = x' ∧ y = y' ∧ z = z') := by
  have hguard : 3 * bitLen (max x (max y z)) < 32 := by
    have : bitLen (max x (max y z)) ≤ 10 := bitLen_le_ten (by omega)
    omega
  refine ⟨makeCode_eq_ok x y z hguard, fun k => ilv_testBit x y z k, ?_⟩
  intro x' y' z' hx' hy' hz' heq
  have hguard' : 3 * bitLen (max x' (max y' z')) < 32 := by
    have : bitLen (max x' (max y' z')) ≤ 10 := bitLen_le_ten (by omega)
    omega
  rw [makeCode_eq_ok x y z hguard, makeCode_eq_ok x' y' z' hguard'] at heq
  exact ilv_inj (by injection heq)

/-- Witness for claim C6 at the concrete triple `(3, 5, 6)`: the code is
returned successfully and bit 4 of the code is bit 1 of `y = 5`. -/
theorem makeCode_valid_spec_witness :
    makeCode 3 5 6 = .ok (ilv 3 5 6)
      ∧ (ilv 3 5 6).testBit 4 = (5 : ℕ).testBit 1 := by
  have h := makeCode_valid_spec 3 5 6 (by decide) (by decide) (by decide)
  exact ⟨h.1, (h.2.1 1).2.1⟩

/-- Claim C9: for every coordinate triple, `SplatTree::makeCode` either
returns normally (with the untruncated interleaved code) or throws
`std::range_error`, and it throws precisely when three times the bit length of
the largest coordinate reaches or exceeds the width of `size_type` (32), so a
returned code is never silently truncated. -/
theorem makeCode_total (x y z : ℕ) :
    (makeCode x y z = .ok (ilv x y z) ∨ makeCode x y z = .error .rangeError)
      ∧ (makeCode x y z = .error .rangeError ↔ 32 ≤ 3 * bitLen (max x (max y z)))
      ∧ (∀ v, makeCode x y z = .ok v → v = ilv x y z) := by
  rcases lt_or_ge (3 * bitLen (max x (max y z))) 32 with hlt | hge
  · have hok := makeCode_eq_ok x y z hlt
    refine ⟨Or.inl hok, ?_, ?_⟩
    · constructor
      · intro herr
        rw [hok] at herr
        exact absurd herr (by simp)
      · intro hc; omega
    · intro v hv
      rw [hok] at hv
      injection hv
      omega
  · have herr := makeCode_eq_error x y z hge
    refine ⟨Or.inr herr, ⟨fun _ => hge, fun _ => herr⟩, ?_⟩
    intro v hv
    rw [herr] at hv
    exact absurd hv (by simp)

/-- Witness for claim C9: at `(1024, 0, 0)` the interleaved result needs 33
bits, and `makeCode` reports `std::range_error`. -/
theorem makeCode_total_witness :
    makeCode 1024 0 0 = .error .rangeError :=
  (makeCode_total 1024 0 0).2.1.mpr (by decide)

end SplatTree

/-- Embedding of `Splat` (splat.h is not among the provided sources; fields
follow the spec §3 and the uses in splattree.cpp and test_bucket.cpp):
position, oriented normal and radius.  splattree.cpp stores `radiusSquared`
and computes `radius = sqrt(radiusSquared)`; the model carries the radius
itself, which parameterizes the same data. -/
structure Splat where
  pos : V3 ℚ
  normal : V3 ℚ
  radius : ℚ

instance : Inhabited Splat := ⟨⟨fun _ => 0, fun _ => 0, 0⟩⟩

/-- Modelled from the spec: `grid.h` is absent from the provided sources.
Per §3 a grid is a reference point, a uniform spacing and per-axis
inclusive-lower / exclusive-upper extents in cell units. -/
structure Grid where
  ref : V3 ℚ
  spacing : ℚ
  lower : V3 ℤ
  upper : V3 ℤ

namespace Grid

/-- Number of cells along an axis, `upper - lower` (spec §3). -/
def numCells (g : Grid) (i : Fin 3) : ℕ := (g.upper i - g.lower i).toNat

/-- Number of vertices along an axis, `numCells + 1` (spec §3). -/
def numVertices (g : Grid) (i : Fin 3) : ℕ := g.numCells i + 1

/-- Modelled from the spec (§4.2): `worldToVertex(p)` is component-wise
`(p − ref) / spacing`. -/
def worldToVertex (g : Grid) (p : V3 ℚ) : V3 ℚ := fun i => (p i - g.ref i) / g.spacing

end Grid

/-- C-style upward-search loop: starting from `s`, increment until the
predicate holds (with fuel for structural termination). -/
def loopUp (p : ℕ → Bool) : ℕ → ℕ → ℕ
  | 0, s => s
  | f + 1, s => if p s then s else loopUp p f (s + 1)

theorem loopUp_eq_of_pos (p : ℕ → Bool) (f s : ℕ) (h : p s = true) :
    loopUp p (f + 1) s = s := by
  simp [loopUp, h]

theorem loopUp_eq_of_neg (p : ℕ → Bool) (f s : ℕ) (h : p s = false) :
    loopUp p (f + 1) s = loopUp p f (s + 1) := by
  simp [loopUp, h]

theorem loopUp_ge (p : ℕ → Bool) (f : ℕ) : ∀ s : ℕ, s ≤ loopUp p f s := by
  induction f with
  | zero => intro s; simp [loopUp]
  | succ f ih =>
    intro s
    cases hps : p s with
    | true => rw [loopUp_eq_of_pos p f s hps]
    | false =>
      rw [loopUp_eq_of_neg p f s hps]
      have := ih (s + 1)
      omega

theorem loopUp_spec (p : ℕ → Bool) (f : ℕ) : ∀ s : ℕ,
    (∃ k, k ≤ f ∧ p (s + k) = true) →
    p (loopUp p f s) = true ∧ ∀ j, s ≤ j → j < loopUp p f s → p j = false := by
  induction f with
  | zero =>
    intro s ⟨k, hk, hp⟩
    have hk0 : k = 0 := by omega
    subst hk0
    rw [show loopUp p 0 s = s from rfl]
    exact ⟨by simpa using hp, fun j h1 h2 => by omega⟩
  | succ f ih =>
    intro s ⟨k, hk, hp⟩
    cases hps : p s with
    | true =>
      rw [loopUp_eq_of_pos p f s hps]
      exact ⟨hps, fun j h1 h2 => by omega⟩
    | false =>
      rw [loopUp_eq_of_neg p f s hps]
      have hk0 : k ≠ 0 := by
        intro hc; subst hc; simp at hp; rw [hp] at hps; exact absurd hps (by simp)
      obtain ⟨hspec, hmin⟩ := ih (s + 1)
        ⟨k - 1, by omega, by rw [show s + 1 + (k - 1) = s + k by omega]; exact hp⟩
      refine ⟨hspec, fun j h1 h2 => ?_⟩
      rcases Nat.eq_or_lt_of_le h1 with heq | hlt
      · subst heq; exact hps
      · exact hmin j hlt h2

theorem loopUp_le (p : ℕ → Bool) (f s B : ℕ)
    (hex : ∃ k, k ≤ f ∧ p (s + k) = true) (hB : s ≤ B) (hpB : p B = true) :
    loopUp p f s ≤ B := by
  by_contra hc
  have := (loopUp_spec p f s hex).2 B hB (by omega)
  rw [hpB] at this
  exact absurd this (by simp)

/-- Monadic map over `Except`, specialized first-order (the meaning of
`List::mapM` for short-circuiting error propagation): apply `f` in order and
stop at the first error. -/
def mapME {ε α β : Type} (f : α → Except ε β) : List α → Except ε (List β)
  | [] => .ok []
  | a :: l =>
    match f a with
    | .error e => .error e
    | .ok b =>
      match mapME f l with
      | .error e => .error e
      | .ok bs => .ok (b :: bs)

namespace SplatTree

/-- Embedding of the `maxLevel` computation (splattree.cpp lines 77–80): the
smallest level with `2^maxLevel ≥ size` where `size` is the largest per-axis
vertex count. -/
def maxLevelOf (g : Grid) : ℕ :=
  let size := max (g.numVertices 0) (max (g.numVertices 1) (g.numVertices 2))
  loopUp (fun l => decide (size ≤ 2 ^ l)) (size + 1) 0

/-- Cumulative octree cell counts: `lsF i = Σ_{j<i} 8^j`, the value
`levelStart[i]` computed in splattree.cpp lines 81–84. -/
def lsF : ℕ → ℕ
  | 0 => 0
  | i + 1 => lsF i + 8 ^ i

/-- Embedding of stage 1 of the per-splat computation (splattree.cpp lines
95–112): the integer vertex box `(ilo, ihi)` obtained by expanding the splat
by its radius, converting to vertex coordinates and rounding inward. -/
def splatBox (g : Grid) (sp : Splat) : V3 ℤ × V3 ℤ :=
  (fun i => ⌈g.worldToVertex (fun j => sp.pos j - sp.radius) i⌉,
   fun i => ⌊g.worldToVertex (fun j => sp.pos j + sp.radius) i⌋)

/-- One axis of the shift loop (splattree.cpp line 115): starting from `s0`,
increment `shift` while `(ihi >> shift) - (ilo >> shift) > 1`.  Integer `>>`
is division by a power of two. -/
def shiftStep (lo hi : ℤ) (s0 : ℕ) : ℕ :=
  loopUp (fun sh => decide (hi / (2 : ℤ) ^ sh - lo / (2 : ℤ) ^ sh ≤ 1))
    (lo.natAbs + hi.natAbs + 1) s0

/-- The complete shift computation over the three axes in source order. -/
def shiftOf (b : V3 ℤ × V3 ℤ) : ℕ :=
  shiftStep (b.1 2) (b.2 2) (shiftStep (b.1 1) (b.2 1) (shiftStep (b.1 0) (b.2 0) 0))

/-- Inclusive integer range `[a, b]` as a list (empty when `b < a`), the
iteration space of the cell loops. -/
def intRange (a b : ℤ) : List ℤ :=
  (List.range (b + 1 - a).toNat).map (fun j : ℕ => a + (j : ℤ))

/-- Embedding of the cell loops (splattree.cpp lines 128–134): all `(x, y, z)`
with `ilo >> shift ≤ · ≤ ihi >> shift`, `z` outermost and `x` innermost. -/
def cellsOf (b : V3 ℤ × V3 ℤ) (shift : ℕ) : List (ℤ × ℤ × ℤ) :=
  (intRange (b.1 2 / (2 : ℤ) ^ shift) (b.2 2 / (2 : ℤ) ^ shift)).flatMap fun z =>
    (intRange (b.1 1 / (2 : ℤ) ^ shift) (b.2 1 / (2 : ℤ) ^ shift)).flatMap fun y =>
      (intRange (b.1 0 / (2 : ℤ) ^ shift) (b.2 0 / (2 : ℤ) ^ shift)).map fun x => (x, y, z)

/-- The cell positions (`levelStart[level] + code`) a splat with vertex box
`b` occupies, using the untruncated interleave (which agrees with `makeCode`
whenever the latter succeeds). -/
def positionsOf (maxLevel : ℕ) (b : V3 ℤ × V3 ℤ) : List ℕ :=
  (cellsOf b (shiftOf b)).map fun c =>
    lsF (maxLevel - shiftOf b) + ilv c.1.toNat c.2.1.toNat c.2.2.toNat

/-- Transient per-cell record built during construction (splattree.cpp lines
28–37): position in the `start` array and originating splat. -/
structure Entry where
  pos : ℕ
  splatId : ℕ
deriving DecidableEq

/-- Entries contributed by one splat (splattree.cpp lines 126–134), failing
with `std::range_error` if `makeCode` overflows. -/
def splatEntries (maxLevel : ℕ) (splatId : ℕ) (b : V3 ℤ × V3 ℤ) :
    Except SplatTreeError (List Entry) :=
  mapME
    (fun c => (makeCode c.1.toNat c.2.1.toNat c.2.2.toNat).map fun code =>
      ⟨lsF (maxLevel - shiftOf b) + code, splatId⟩)
    (cellsOf b (shiftOf b))

/-- Embedding of `std::stable_sort` by `Entry.pos` (splattree.cpp line 140)
through its defining property: the output lists the entries of each position
class in increasing position order, preserving the original order inside each
class.  `total` bounds the occurring positions. -/
def sortEntries (total : ℕ) (es : List Entry) : List Entry :=
  (List.range (total + 1)).flatMap fun p => es.filter fun e => e.pos = p

/-- Exclusive prefix sum, embedding the loop of splattree.cpp lines 150–156. -/
def exclScan : ℕ → List ℕ → List ℕ
  | _, [] => []
  | acc, c :: cs => acc :: exclScan (acc + c) cs

/-- Embedding of the `SplatTree` constructor (splattree.cpp lines 58–157):
check the size limit, compute every splat's entries (propagating
`std::range_error` from `makeCode`), stable-sort them by cell position, and
produce the `levelStart`, `start` and `ids` arrays. -/
def make (splats : List Splat) (g : Grid) : Except SplatTreeError SplatTree :=
  if splats.length > sizeTypeMax then .error .lengthError
  else
    match mapME (fun j => splatEntries (maxLevelOf g) j (splatBox g (splats.getD j default)))
        (List.range splats.length) with
    | .error e => .error e
    | .ok ess =>
      .ok { levelStart := (List.range (maxLevelOf g + 2)).map lsF,
            start := exclScan 0 ((List.range (lsF (maxLevelOf g + 1) + 1)).map fun p =>
              ess.flatten.countP fun e => e.pos = p),
            ids := (sortEntries (lsF (maxLevelOf g + 1)) ess.flatten).map Entry.splatId }

end SplatTree

theorem mapME_error_mem {ε α β : Type} (f : α → Except ε β) :
    ∀ (l : List α) (e : ε), mapME f l = .error e → ∃ a ∈ l, f a = .error e := by
  intro l
  induction l with
  | nil => intro e h; simp [mapME] at h
  | cons a l ih =>
    intro e h
    unfold mapME at h
    cases hfa : f a with
    | error e' =>
      rw [hfa] at h
      injection h with he
      exact ⟨a, by simp, by rw [hfa, he]⟩
    | ok b =>
      rw [hfa] at h
      cases hl : mapME f l with
      | error e' =>
        rw [hl] at h
        injection h with he
        obtain ⟨a', ha', hfa'⟩ := ih e' hl
        exact ⟨a', by simp [ha'], by rw [hfa', he]⟩
      | ok bs =>
        rw [hl] at h
        exact absurd h (by simp)

theorem mapME_ok_forall {ε α β : Type} (f : α → Except ε β) (g : α → β) :
    ∀ (l : List α) (ys : List β), mapME f l = .ok ys →
      (∀ a ∈ l, ∀ y, f a = .ok y → y = g a) → ys = l.map g := by
  intro l
  induction l with
  | nil => intro ys h _; simp [mapME] at h; simp [← h]
  | cons a l ih =>
    intro ys h hg
    unfold mapME at h
    cases hfa : f a with
    | error e' => rw [hfa] at h; exact absurd h (by simp)
    | ok b =>
      rw [hfa] at h
      cases hl : mapME f l with
      | error e' => rw [hl] at h; exact absurd h (by simp)
      | ok bs =>
        rw [hl] at h
        injection h with he
        rw [List.map_cons, ← he]
        have hb : b = g a := hg a (by simp) b hfa
        have hbs : bs = l.map g := ih bs hl (fun a' ha' y hy => hg a' (by simp [ha']) y hy)
        rw [hb, hbs]

namespace SplatTree

theorem splatEntries_no_lengthError (maxLevel splatId : ℕ) (b : V3 ℤ × V3 ℤ) :
    splatEntries maxLevel splatId b ≠ .error .lengthError := by
  intro h
  obtain ⟨c, _, hc⟩ := mapME_error_mem _ _ _ h
  rcases (makeCode_total c.1.toNat c.2.1.toNat c.2.2.toNat).1 with hok | herr
  · rw [hok] at hc
    simp [Except.map] at hc
  · rw [herr] at hc
    simp [Except.map] at hc

/-- Claim C10: the `SplatTree` constructor throws `std::length_error` whenever
the splat vector's size exceeds the largest `size_type` value, and this check
is the first action of the constructor — on inputs within the limit the
constructor never reports `std::length_error` (so no partially constructed
arrays are exposed by this failure). -/
theorem make_length_spec (splats : List Splat) (g : Grid) :
    (splats.length > sizeTypeMax → make splats g = .error .lengthError)
      ∧ (splats.length ≤ sizeTypeMax → make splats g ≠ .error .lengthError) := by
  constructor
  · intro h
    unfold make
    rw [if_pos h]
  · intro h hc
    unfold make at hc
    rw [if_neg (by omega)] at hc
    cases hm : mapME (fun j => splatEntries (maxLevelOf g) j (splatBox g (splats.getD j default)))
        (List.range splats.length) with
    | error e =>
      rw [hm] at hc
      injection hc with he
      subst he
      obtain ⟨j, _, hib⟩ := mapME_error_mem _ _ _ hm
      exact splatEntries_no_lengthError _ _ _ hib
    | ok ess =>
      rw [hm] at hc
      exact absurd hc (by simp)

/-- Witness for claim C10: a vector of `2^32` default splats exceeds the
`size_type` limit `2^32 - 1` and the constructor reports `std::length_error`. -/
theorem make_length_spec_witness :
    make (List.replicate (2 ^ 32) default) ⟨fun _ => 0, 1, fun _ => 0, fun _ => 1⟩
      = .error .lengthError :=
  (make_length_spec (List.replicate (2 ^ 32) default)
      ⟨fun _ => 0, 1, fun _ => 0, fun _ => 1⟩).1
    (by rw [List.length_replicate]; decide)

end SplatTree

namespace SplatTree

theorem lsF_succ (i : ℕ) : lsF (i + 1) = lsF i + 8 ^ i := rfl

theorem lsF_mono {i j : ℕ} (h : i ≤ j) : lsF i ≤ lsF j := by
  induction h with
  | refl => exact le_refl _
  | step _ ih => exact le_trans ih (by rw [lsF_succ]; exact Nat.le_add_right _ _)

theorem ilv_lt_8pow : ∀ (k x y z : ℕ), x < 2 ^ k → y < 2 ^ k → z < 2 ^ k →
    ilv x y z < 8 ^ k := by
  intro k
  induction k with
  | zero =>
    intro x y z hx hy hz
    have : x = 0 ∧ y = 0 ∧ z = 0 := by omega
    obtain ⟨hx0, hy0, hz0⟩ := this
    subst hx0; subst hy0; subst hz0
    rw [ilv_zero]
    omega
  | succ k ih =>
    intro x y z hx hy hz
    by_cases h0 : x = 0 ∧ y = 0 ∧ z = 0
    · obtain ⟨hx0, hy0, hz0⟩ := h0
      subst hx0; subst hy0; subst hz0
      rw [ilv_zero]
      exact Nat.pos_pow_of_pos _ (by omega)
    · rw [ilv_step x y z h0]
      have hx2 : x / 2 < 2 ^ k := by
        rw [pow_succ] at hx
        omega
      have hy2 : y / 2 < 2 ^ k := by
        rw [pow_succ] at hy
        omega
      have hz2 : z / 2 < 2 ^ k := by
        rw [pow_succ] at hz
        omega
      have := ih (x / 2) (y / 2) (z / 2) hx2 hy2 hz2
      have h8 : 8 ^ (k + 1) = 8 * 8 ^ k := by ring
      omega

theorem maxLevelOf_spec (g : Grid) : ∀ i : Fin 3, g.numVertices i ≤ 2 ^ maxLevelOf g := by
  have hsize : max (g.numVertices 0) (max (g.numVertices 1) (g.numVertices 2))
      ≤ 2 ^ maxLevelOf g := by
    set size := max (g.numVertices 0) (max (g.numVertices 1) (g.numVertices 2)) with hs
    have hspec := (loopUp_spec (fun l => decide (size ≤ 2 ^ l)) (size + 1) 0
      ⟨size, by omega, by
        simp only [Nat.zero_add, decide_eq_true_eq]
        exact Nat.le_of_lt (Nat.lt_two_pow size)⟩).1
    simpa using hspec
  intro i
  fin_cases i
  · exact le_trans (le_max_left _ _) hsize
  · exact le_trans (le_trans (le_max_left _ _) (le_max_right _ _)) hsize
  · exact le_trans (le_trans (le_max_right _ _) (le_max_right _ _)) hsize

theorem intRange_mem {a b x : ℤ} : x ∈ intRange a b ↔ a ≤ x ∧ x ≤ b := by
  unfold intRange
  simp only [List.mem_map, List.mem_range]
  constructor
  · rintro ⟨j, hj, rfl⟩
    omega
  · intro ⟨h1, h2⟩
    exact ⟨(x - a).toNat, by omega, by omega⟩

theorem intRange_nodup (a b : ℤ) : (intRange a b).Nodup := by
  unfold intRange
  exact (List.nodup_range _).map (fun m n h => by omega)

theorem cellsOf_mem {b : V3 ℤ × V3 ℤ} {s : ℕ} {c : ℤ × ℤ × ℤ} :
    c ∈ cellsOf b s ↔
      (b.1 0 / (2 : ℤ) ^ s ≤ c.1 ∧ c.1 ≤ b.2 0 / (2 : ℤ) ^ s)
        ∧ (b.1 1 / (2 : ℤ) ^ s ≤ c.2.1 ∧ c.2.1 ≤ b.2 1 / (2 : ℤ) ^ s)
        ∧ (b.1 2 / (2 : ℤ) ^ s ≤ c.2.2 ∧ c.2.2 ≤ b.2 2 / (2 : ℤ) ^ s) := by
  unfold cellsOf
  simp only [List.mem_flatMap, List.mem_map]
  constructor
  · rintro ⟨z, hz, y, hy, x, hx, rfl⟩
    exact ⟨intRange_mem.mp hx, intRange_mem.mp hy, intRange_mem.mp hz⟩
  · intro ⟨hx, hy, hz⟩
    exact ⟨c.2.2, intRange_mem.mpr hz, c.2.1, intRange_mem.mpr hy, c.1,
      intRange_mem.mpr hx, rfl⟩

theorem nodup_flatMap_of_disjoint {α β : Type} (l : List α) (f : α → List β)
    (hl : l.Nodup) (hf : ∀ a ∈ l, (f a).Nodup)
    (hdis : ∀ a ∈ l, ∀ a' ∈ l, a ≠ a' → ∀ x ∈ f a, x ∉ f a') :
    (l.flatMap f).Nodup := by
  induction l with
  | nil => simp
  | cons a l ih =>
    rw [List.flatMap_cons]
    apply List.Nodup.append
    · exact hf a (by simp)
    · exact ih (List.Nodup.of_cons hl) (fun a' ha' => hf a' (by simp [ha']))
        (fun a1 h1 a2 h2 hne => hdis a1 (by simp [h1]) a2 (by simp [h2]) hne)
    · intro x hx hx'
      rw [List.mem_flatMap] at hx'
      obtain ⟨a', ha', hxa'⟩ := hx'
      have hne : a ≠ a' := by
        rintro rfl
        rw [List.nodup_cons] at hl
        exact hl.1 ha'
      exact hdis a (by simp) a' (by simp [ha']) hne x hx hxa'

theorem cellsOf_nodup (b : V3 ℤ × V3 ℤ) (s : ℕ) : (cellsOf b s).Nodup := by
  unfold cellsOf
  apply nodup_flatMap_of_disjoint _ _ (intRange_nodup _ _)
  · intro z _
    apply nodup_flatMap_of_disjoint _ _ (intRange_nodup _ _)
    · intro y _
      exact (intRange_nodup _ _).map (fun x1 x2 h => by
        injection h)
    · intro y1 _ y2 _ hne x hx hx'
      rw [List.mem_map] at hx hx'
      obtain ⟨x1, _, rfl⟩ := hx
      obtain ⟨x2, _, heq⟩ := hx'
      injection heq with h1 h2
      injection h2 with h2
      exact hne h2.symm
  · intro z1 _ z2 _ hne x hx hx'
    rw [List.mem_flatMap] at hx hx'
    obtain ⟨y1, _, hx⟩ := hx
    obtain ⟨y2, _, hx'⟩ := hx'
    rw [List.mem_map] at hx hx'
    obtain ⟨x1, _, rfl⟩ := hx
    obtain ⟨x2, _, heq⟩ := hx'
    injection heq with h1 h2
    injection h2 with h2 h3
    exact hne h3.symm

end SplatTree

namespace SplatTree

/-- The construction precondition of splattree.cpp lines 113–114: every
splat's rounded vertex box lies inside the grid's vertex range. -/
def boxInGrid (g : Grid) (b : V3 ℤ × V3 ℤ) : Prop :=
  ∀ i : Fin 3, 0 ≤ b.1 i ∧ b.1 i < (g.numVertices i : ℤ)
    ∧ 0 ≤ b.2 i ∧ b.2 i < (g.numVertices i : ℤ)

theorem nat_div_lt_pow {h s L : ℕ} (hh : h < 2 ^ L) : h / 2 ^ s < 2 ^ (L - s) := by
  rcases le_or_lt s L with hsl | hsl
  · rw [Nat.div_lt_iff_lt_mul (Nat.pos_pow_of_pos _ (by omega))]
    calc h < 2 ^ L := hh
      _ = 2 ^ (L - s) * 2 ^ s := by rw [← pow_add]; congr 1; omega
  · have hL : L - s = 0 := by omega
    rw [hL, pow_zero]
    have h2 : h < 2 ^ s := lt_of_lt_of_le hh (Nat.pow_le_pow_right (by omega) (by omega))
    rw [Nat.div_eq_of_lt h2]
    omega

theorem cell_coord_bound {L s : ℕ} {lo hi x : ℤ} (hlo : 0 ≤ lo) (hhi : 0 ≤ hi)
    (hhiL : hi < (2 : ℤ) ^ L) (hge : lo / (2 : ℤ) ^ s ≤ x) (hle : x ≤ hi / (2 : ℤ) ^ s) :
    0 ≤ x ∧ x.toNat < 2 ^ (L - s) := by
  have hx0 : 0 ≤ x := le_trans (Int.ediv_nonneg hlo (by positivity)) hge
  refine ⟨hx0, ?_⟩
  have hcast : hi / (2 : ℤ) ^ s = ((hi.toNat / 2 ^ s : ℕ) : ℤ) := by
    rw [Int.natCast_div]
    push_cast
    rw [Int.toNat_of_nonneg hhi]
  have hhn : hi.toNat < 2 ^ L := by
    have h1 : ((hi.toNat : ℕ) : ℤ) < (2 : ℤ) ^ L := by
      rw [Int.toNat_of_nonneg hhi]; exact hhiL
    have h2 : ((2 ^ L : ℕ) : ℤ) = (2 : ℤ) ^ L := by push_cast; ring
    omega
  rw [hcast] at hle
  have := nat_div_lt_pow (s := s) hhn
  omega

theorem positionsOf_mem {mL : ℕ} {b : V3 ℤ × V3 ℤ} {p : ℕ} :
    p ∈ positionsOf mL b ↔ ∃ c ∈ cellsOf b (shiftOf b),
      p = lsF (mL - shiftOf b) + ilv c.1.toNat c.2.1.toNat c.2.2.toNat := by
  unfold positionsOf
  simp only [List.mem_map]
  constructor
  · rintro ⟨c, hc, rfl⟩; exact ⟨c, hc, rfl⟩
  · rintro ⟨c, hc, rfl⟩; exact ⟨c, hc, rfl⟩

theorem positionsOf_lt (g : Grid) (b : V3 ℤ × V3 ℤ) (hb : boxInGrid g b) :
    ∀ p ∈ positionsOf (maxLevelOf g) b, p < lsF (maxLevelOf g + 1) := by
  intro p hp
  obtain ⟨c, hc, rfl⟩ := positionsOf_mem.mp hp
  obtain ⟨hx, hy, hz⟩ := cellsOf_mem.mp hc
  have hnv : ∀ i : Fin 3, ((g.numVertices i : ℕ) : ℤ) ≤ (2 : ℤ) ^ maxLevelOf g := by
    intro i
    have := maxLevelOf_spec g i
    calc ((g.numVertices i : ℕ) : ℤ) ≤ ((2 ^ maxLevelOf g : ℕ) : ℤ) := by exact_mod_cast this
      _ = (2 : ℤ) ^ maxLevelOf g := by push_cast; ring
  have hb0 := hb 0
  have hb1 := hb 1
  have hb2 := hb 2
  have hcx := cell_coord_bound hb0.1 hb0.2.2.1 (lt_of_lt_of_le hb0.2.2.2 (hnv 0)) hx.1 hx.2
  have hcy := cell_coord_bound hb1.1 hb1.2.2.1 (lt_of_lt_of_le hb1.2.2.2 (hnv 1)) hy.1 hy.2
  have hcz := cell_coord_bound hb2.1 hb2.2.2.1 (lt_of_lt_of_le hb2.2.2.2 (hnv 2)) hz.1 hz.2
  have hilv := ilv_lt_8pow (maxLevelOf g - shiftOf b) _ _ _ hcx.2 hcy.2 hcz.2
  have hstep : lsF (maxLevelOf g - shiftOf b) + 8 ^ (maxLevelOf g - shiftOf b)
      = lsF (maxLevelOf g - shiftOf b + 1) := (lsF_succ _).symm
  have hmono : lsF (maxLevelOf g - shiftOf b + 1) ≤ lsF (maxLevelOf g + 1) :=
    lsF_mono (by omega)
  omega

theorem positionsOf_nodup (mL : ℕ) (b : V3 ℤ × V3 ℤ) (hlo : ∀ i : Fin 3, 0 ≤ b.1 i) :
    (positionsOf mL b).Nodup := by
  unfold positionsOf
  apply List.Nodup.map_on _ (cellsOf_nodup b (shiftOf b))
  intro c hc c' hc' heq
  have hcb := cellsOf_mem.mp hc
  have hcb' := cellsOf_mem.mp hc'
  have hnn : ∀ i : Fin 3, 0 ≤ b.1 i / (2 : ℤ) ^ shiftOf b := fun i =>
    Int.ediv_nonneg (hlo i) (by positivity)
  have hilv : ilv c.1.toNat c.2.1.toNat c.2.2.toNat
      = ilv c'.1.toNat c'.2.1.toNat c'.2.2.toNat := by omega
  obtain ⟨h1, h2, h3⟩ := ilv_inj hilv
  have e1 : c.1 = c'.1 := by
    have := hnn 0
    omega
  have e2 : c.2.1 = c'.2.1 := by
    have := hnn 1
    omega
  have e3 : c.2.2 = c'.2.2 := by
    have := hnn 2
    omega
  exact Prod.ext e1 (Prod.ext e2 e3)

end SplatTree

namespace SplatTree

theorem countP_pos_split (es : List Entry) (c : ℕ) :
    (es.countP fun e => decide (e.pos < c + 1))
      = (es.countP fun e => decide (e.pos < c)) + (es.countP fun e => decide (e.pos = c)) := by
  induction es with
  | nil => simp
  | cons e es ih =>
    simp only [List.countP_cons, ih]
    rcases Nat.lt_trichotomy e.pos c with h | h | h
    · rw [show decide (e.pos < c + 1) = true by simp; omega,
        show decide (e.pos < c) = true by simp; omega,
        show decide (e.pos = c) = false by simp; omega]
      simp <;> omega
    · rw [show decide (e.pos < c + 1) = true by simp; omega,
        show decide (e.pos < c) = false by simp; omega,
        show decide (e.pos = c) = true by simp; omega]
      simp <;> omega
    · rw [show decide (e.pos < c + 1) = false by simp; omega,
        show decide (e.pos < c) = false by simp; omega,
        show decide (e.pos = c) = false by simp; omega]
      simp <;> omega

theorem sum_range_counts (es : List Entry) : ∀ k : ℕ,
    (((List.range k).map fun p => es.countP fun e => e.pos = p)).sum
      = es.countP fun e => decide (e.pos < k) := by
  intro k
  induction k with
  | zero =>
    simp only [List.range_zero, List.map_nil, List.sum_nil]
    rw [show (fun (e : Entry) => decide (e.pos < 0)) = fun _ => false by
      funext e; simp]
    simp [List.countP_false]
  | succ k ih =>
    rw [List.range_succ, List.map_append, List.sum_append, ih, countP_pos_split]
    simp

theorem exclScan_length : ∀ (l : List ℕ) (a : ℕ), (exclScan a l).length = l.length := by
  intro l
  induction l with
  | nil => intro a; rfl
  | cons c cs ih => intro a; simp [exclScan, ih]

theorem exclScan_getD : ∀ (l : List ℕ) (a k : ℕ), k < l.length →
    (exclScan a l).getD k 0 = a + (l.take k).sum := by
  intro l
  induction l with
  | nil => intro a k h; simp at h
  | cons c cs ih =>
    intro a k h
    cases k with
    | zero =>
      rw [show exclScan a (c :: cs) = a :: exclScan (a + c) cs from rfl,
        List.getD_cons_zero]
      simp
    | succ k =>
      have hk : k < cs.length := by simpa using h
      rw [show exclScan a (c :: cs) = a :: exclScan (a + c) cs from rfl,
        List.getD_cons_succ, ih (a + c) k hk, List.take_succ_cons, List.sum_cons]
      omega

theorem exclScan_ge : ∀ (l : List ℕ) (a : ℕ), ∀ x ∈ exclScan a l, a ≤ x := by
  intro l
  induction l with
  | nil => intro a x hx; simp [exclScan] at hx
  | cons c cs ih =>
    intro a x hx
    simp only [exclScan, List.mem_cons] at hx
    rcases hx with rfl | hx
    · exact le_refl _
    · exact le_trans (by omega) (ih (a + c) x hx)

theorem exclScan_sorted : ∀ (l : List ℕ) (a : ℕ), List.Sorted (· ≤ ·) (exclScan a l) := by
  intro l
  induction l with
  | nil => intro a; simp [exclScan]
  | cons c cs ih =>
    intro a
    rw [show exclScan a (c :: cs) = a :: exclScan (a + c) cs from rfl, List.sorted_cons]
    exact ⟨fun b hb => le_trans (by omega) (exclScan_ge cs (a + c) b hb), ih (a + c)⟩

theorem flatMap_filter_length (es : List Entry) (k : ℕ) :
    (((List.range k).flatMap fun p => es.filter fun e => e.pos = p)).length
      = es.countP fun e => decide (e.pos < k) := by
  rw [List.length_flatMap]
  have hmap : (List.map (List.length ∘ fun p => List.filter (fun e => decide (e.pos = p)) es)
        (List.range k))
      = (List.range k).map fun p => es.countP fun e => e.pos = p := by
    apply List.map_congr_left
    intro p _
    simp only [Function.comp_apply]
    rw [List.countP_eq_length_filter]
  rw [hmap]
  exact sum_range_counts es k

theorem range_split (n c : ℕ) (h : c ≤ n) :
    List.range n = List.range c ++ List.range' c (n - c) := by
  rw [List.range_eq_range', List.range_eq_range']
  have happ := List.range'_append 0 c (n - c) 1
  simp only [Nat.zero_add, Nat.one_mul] at happ
  conv_lhs => rw [show n = (n - c) + c by omega]
  exact happ.symm

theorem sortEntries_split (total c : ℕ) (es : List Entry) (hc : c ≤ total) :
    sortEntries total es
      = ((List.range c).flatMap fun p => es.filter fun e => e.pos = p)
        ++ ((es.filter fun e => e.pos = c)
          ++ ((List.range' (c + 1) (total - c)).flatMap fun p =>
                es.filter fun e => e.pos = p)) := by
  unfold sortEntries
  rw [range_split (total + 1) c (by omega), List.flatMap_append]
  congr 1
  rw [show total + 1 - c = (total - c) + 1 by omega, List.range'_succ]
  rw [List.flatMap_cons]

end SplatTree

theorem flatMap_ite_singleton {α : Type} (l : List α) (p : α → Bool) :
    (l.flatMap fun a => if p a then [a] else []) = l.filter p := by
  induction l with
  | nil => rfl
  | cons a l ih =>
    rw [List.flatMap_cons, ih]
    by_cases h : p a
    · simp [h, List.filter_cons]
    · simp [h, List.filter_cons]

theorem filter_eq_of_nodup {l : List ℕ} (h : l.Nodup) (c : ℕ) :
    (l.filter fun x => x = c) = if c ∈ l then [c] else [] := by
  induction l with
  | nil => simp
  | cons a l ih =>
    rw [List.nodup_cons] at h
    by_cases hac : a = c
    · subst hac
      rw [List.filter_cons_of_pos (by simp), if_pos (List.mem_cons_self a l)]
      congr 1
      rw [List.filter_eq_nil_iff]
      intro b hb
      simp only [decide_eq_true_eq]
      rintro rfl
      exact h.1 hb
    · rw [List.filter_cons_of_neg (by simp [hac]), ih h.2]
      by_cases hc : c ∈ l
      · rw [if_pos hc, if_pos (List.mem_cons_of_mem a hc)]
      · rw [if_neg hc, if_neg (by
          intro hmem
          rcases List.mem_cons.mp hmem with heq | hmem'
          · exact hac heq.symm
          · exact hc hmem')]

namespace SplatTree

/-- The canonical entry list built by the constructor loop, one block per
splat in index order. -/
def entriesOf (splats : List Splat) (g : Grid) : List Entry :=
  (List.range splats.length).flatMap fun j =>
    (positionsOf (maxLevelOf g) (splatBox g (splats.getD j default))).map fun p => ⟨p, j⟩

theorem splatEntries_ok {mL id : ℕ} {b : V3 ℤ × V3 ℤ} {es : List Entry}
    (h : splatEntries mL id b = .ok es) :
    es = (positionsOf mL b).map fun p => ⟨p, id⟩ := by
  unfold splatEntries at h
  have := mapME_ok_forall _
    (fun c => (⟨lsF (mL - shiftOf b) + ilv c.1.toNat c.2.1.toNat c.2.2.toNat, id⟩ : Entry))
    _ _ h ?_
  · rw [this]
    unfold positionsOf
    rw [List.map_map]
    rfl
  · intro c _ y hy
    cases hmc : makeCode c.1.toNat c.2.1.toNat c.2.2.toNat with
    | error e => rw [hmc] at hy; simp [Except.map] at hy
    | ok v =>
      rw [hmc] at hy
      simp only [Except.map] at hy
      injection hy with hy
      have := (makeCode_total c.1.toNat c.2.1.toNat c.2.2.toNat).2.2 v hmc
      rw [← hy, this]

theorem make_ok_shape {splats : List Splat} {g : Grid} {t : SplatTree}
    (hok : make splats g = .ok t) :
    t.start = exclScan 0 ((List.range (lsF (maxLevelOf g + 1) + 1)).map fun p =>
        (entriesOf splats g).countP fun e => e.pos = p)
      ∧ t.ids = (sortEntries (lsF (maxLevelOf g + 1)) (entriesOf splats g)).map Entry.splatId := by
  unfold make at hok
  by_cases hlen : splats.length > sizeTypeMax
  · rw [if_pos hlen] at hok
    exact absurd hok (by simp)
  · rw [if_neg hlen] at hok
    cases hm : mapME (fun j => splatEntries (maxLevelOf g) j (splatBox g (splats.getD j default)))
        (List.range splats.length) with
    | error e => rw [hm] at hok; exact absurd hok (by simp)
    | ok ess =>
      rw [hm] at hok
      have hess : ess = (List.range splats.length).map fun j =>
          (positionsOf (maxLevelOf g) (splatBox g (splats.getD j default))).map
            fun p => (⟨p, j⟩ : Entry) := by
        apply mapME_ok_forall _ _ _ _ hm
        intro j _ y hy
        exact splatEntries_ok hy
      have hflat : ess.flatten = entriesOf splats g := by
        rw [hess, ← List.flatMap_def]
        rfl
      injection hok with hok
      rw [← hok]
      rw [hflat]
      exact ⟨rfl, rfl⟩

end SplatTree

theorem flatMap_congr {α β : Type} (l : List α) (f g : α → List β)
    (h : ∀ a ∈ l, f a = g a) : l.flatMap f = l.flatMap g := by
  rw [List.flatMap_def, List.flatMap_def, List.map_congr_left h]

theorem flatMap_ite_singleton_prop {α : Type} (l : List α) (p : α → Prop) [DecidablePred p] :
    (l.flatMap fun a => if p a then [a] else []) = l.filter fun a => decide (p a) := by
  induction l with
  | nil => rfl
  | cons a l ih =>
    rw [List.flatMap_cons, ih]
    by_cases h : p a
    · rw [if_pos h, List.filter_cons_of_pos (by simp [h])]
      rfl
    · rw [if_neg h, List.filter_cons_of_neg (by simp [h])]
      simp

namespace SplatTree

theorem getD_mem_of_lt {l : List Splat} {j : ℕ} (h : j < l.length) :
    l.getD j default ∈ l := by
  rw [List.getD_eq_getElem l default h]
  exact List.getElem_mem h

theorem entriesOf_pos_lt {splats : List Splat} {g : Grid}
    (hpre : ∀ sp ∈ splats, boxInGrid g (splatBox g sp)) :
    ∀ e ∈ entriesOf splats g, e.pos < lsF (maxLevelOf g + 1) := by
  intro e he
  unfold entriesOf at he
  rw [List.mem_flatMap] at he
  obtain ⟨j, hj, he⟩ := he
  rw [List.mem_map] at he
  obtain ⟨p, hp, rfl⟩ := he
  rw [List.mem_range] at hj
  exact positionsOf_lt g _ (hpre _ (getD_mem_of_lt hj)) p hp

theorem start_getD_eq {splats : List Splat} {g : Grid} {t : SplatTree}
    (hok : make splats g = .ok t) (c : ℕ) (hc : c ≤ lsF (maxLevelOf g + 1)) :
    t.start.getD c 0 = (entriesOf splats g).countP fun e => decide (e.pos < c) := by
  obtain ⟨hstart, _⟩ := make_ok_shape hok
  rw [hstart]
  rw [exclScan_getD _ 0 c (by simp; omega)]
  rw [← List.map_take, List.take_range,
    show c ⊓ (lsF (maxLevelOf g + 1) + 1) = c by omega]
  rw [sum_range_counts]
  omega

theorem filter_entries_map {splats : List Splat} {g : Grid}
    (hpre : ∀ sp ∈ splats, boxInGrid g (splatBox g sp)) (c : ℕ) :
    (((entriesOf splats g).filter fun e => e.pos = c).map Entry.splatId)
      = (List.range splats.length).filter fun j =>
          decide (c ∈ positionsOf (maxLevelOf g) (splatBox g (splats.getD j default))) := by
  unfold entriesOf
  rw [List.filter_flatMap, List.map_flatMap]
  rw [flatMap_congr _ _ (fun j =>
    if c ∈ positionsOf (maxLevelOf g) (splatBox g (splats.getD j default)) then [j] else []) ?_]
  · exact flatMap_ite_singleton_prop _ _
  · intro j hj
    rw [List.mem_range] at hj
    rw [List.filter_map]
    rw [show ((fun e : Entry => decide (e.pos = c)) ∘ fun p => (⟨p, j⟩ : Entry))
      = fun p => decide (p = c) from rfl]
    have hnodup := positionsOf_nodup (maxLevelOf g) (splatBox g (splats.getD j default))
      (fun i => (hpre _ (getD_mem_of_lt hj) i).1)
    rw [filter_eq_of_nodup hnodup c]
    by_cases hmem : c ∈ positionsOf (maxLevelOf g) (splatBox g (splats.getD j default))
    · simp only [hmem, if_true]
      rfl
    · simp only [hmem, if_false]
      rfl

/-- Claim C4: for every splat vector and grid satisfying the construction
preconditions (each splat's rounded vertex box lies inside the grid's vertex
range), if the `SplatTree` constructor completes then the `start` array is
monotonically non-decreasing, its last entry equals `ids.size()`, and for
every cell `c` the slice `ids[start[c] .. start[c+1])` is exactly the list of
splat indices whose chosen placement level and Morton code resolve to `c`, in
increasing (stable) original splat order. -/
theorem make_start_ids_spec (splats : List Splat) (g : Grid) (t : SplatTree)
    (hpre : ∀ sp ∈ splats, boxInGrid g (splatBox g sp))
    (hok : make splats g = .ok t) :
    List.Sorted (· ≤ ·) t.start
      ∧ t.start.getLast? = some t.ids.length
      ∧ ∀ c, c < lsF (maxLevelOf g + 1) →
          ((t.ids.drop (t.start.getD c 0)).take (t.start.getD (c + 1) 0 - t.start.getD c 0))
            = (List.range splats.length).filter fun j =>
                decide (c ∈ positionsOf (maxLevelOf g) (splatBox g (splats.getD j default))) := by
  obtain ⟨hstart, hids⟩ := make_ok_shape hok
  have hposlt := entriesOf_pos_lt hpre
  have hlenstart : t.start.length = lsF (maxLevelOf g + 1) + 1 := by
    rw [hstart, exclScan_length]
    simp
  have hlenids : t.ids.length = (entriesOf splats g).length := by
    rw [hids, List.length_map]
    show (((List.range (lsF (maxLevelOf g + 1) + 1)).flatMap fun p =>
      (entriesOf splats g).filter fun e => e.pos = p)).length = _
    rw [flatMap_filter_length]
    rw [List.countP_eq_length]
    intro e he
    simp only [decide_eq_true_eq]
    exact lt_of_lt_of_le (hposlt e he) (by omega)
  refine ⟨?_, ?_, ?_⟩
  · rw [hstart]
    exact exclScan_sorted _ 0
  · have hne : t.start.length - 1 < t.start.length := by omega
    rw [List.getLast?_eq_getElem?, List.getElem?_eq_getElem hne]
    congr 1
    rw [← List.getD_eq_getElem t.start 0 hne]
    rw [show t.start.length - 1 = lsF (maxLevelOf g + 1) by omega]
    rw [start_getD_eq hok _ (le_refl _)]
    rw [hlenids]
    rw [List.countP_eq_length]
    intro e he
    simp only [decide_eq_true_eq]
    exact hposlt e he
  · intro c hc
    rw [start_getD_eq hok c (by omega), start_getD_eq hok (c + 1) (by omega)]
    have hdiff : ((entriesOf splats g).countP fun e => decide (e.pos < c + 1))
        - ((entriesOf splats g).countP fun e => decide (e.pos < c))
        = (entriesOf splats g).countP fun e => decide (e.pos = c) := by
      rw [countP_pos_split]
      omega
    rw [hdiff]
    rw [hids]
    rw [sortEntries_split (lsF (maxLevelOf g + 1)) c (entriesOf splats g) (by omega)]
    rw [List.map_append]
    rw [show (entriesOf splats g).countP (fun e => decide (e.pos < c))
      = (((List.range c).flatMap fun p =>
          (entriesOf splats g).filter fun e => e.pos = p).map Entry.splatId).length by
        rw [List.length_map, flatMap_filter_length]]
    rw [List.drop_left]
    rw [List.map_append]
    rw [show (entriesOf splats g).countP (fun e => decide (e.pos = c))
      = (((entriesOf splats g).filter fun e => e.pos = c).map Entry.splatId).length by
        rw [List.length_map, List.countP_eq_length_filter]]
    rw [List.take_left]
    exact filter_entries_map hpre c

end SplatTree

namespace SplatTree

/-- Concrete splat for the construction witness: centred at `(3/2, 3/2, 3/2)`
with radius `1/2`, so its expanded box has vertex range `[1, 2]` on each axis. -/
def splatW : Splat := ⟨fun _ => 3 / 2, fun _ => 0, 1 / 2⟩

/-- Concrete grid for the construction witness: reference `0`, spacing `1`,
extents `[0, 3)` on each axis (4 vertices per axis, `maxLevel = 2`). -/
def gridW : Grid := ⟨fun _ => 0, 1, fun _ => 0, fun _ => 3⟩

/-- The tree the constructor builds from `splatW` in `gridW`. -/
def treeW : SplatTree :=
  ⟨[0, 1, 9, 73],
   [0, 0, 0, 0, 0, 0, 0, 0, 0, 0, 0, 0, 0, 0, 0, 0, 0, 1, 1, 1, 1, 1, 1, 1,
    2, 2, 2, 2, 2, 2, 2, 3, 3, 3, 3, 3, 3, 3, 4, 4, 4, 4, 4, 4, 4, 5, 5, 5,
    5, 5, 5, 5, 6, 6, 6, 6, 6, 6, 6, 7, 7, 7, 7, 7, 7, 7, 8, 8, 8, 8, 8, 8,
    8, 8],
   [0, 0, 0, 0, 0, 0, 0, 0]⟩

theorem splatBoxW_eq : splatBox gridW splatW = (fun _ => (1 : ℤ), fun _ => (2 : ℤ)) := by
  unfold splatBox Grid.worldToVertex splatW gridW
  refine Prod.ext ?_ ?_ <;> funext i <;> norm_num

theorem makeW_eq : make [splatW] gridW = .ok treeW := by
  have hf : splatEntries (maxLevelOf gridW) 0 (splatBox gridW ([splatW].getD 0 default))
      = .ok [⟨16, 0⟩, ⟨23, 0⟩, ⟨30, 0⟩, ⟨37, 0⟩, ⟨44, 0⟩, ⟨51, 0⟩, ⟨58, 0⟩, ⟨65, 0⟩] := by
    rw [show [splatW].getD 0 default = splatW from rfl, splatBoxW_eq]
    decide
  have hm : mapME (fun j => splatEntries (maxLevelOf gridW) j
        (splatBox gridW ([splatW].getD j default))) (List.range [splatW].length)
      = .ok [[⟨16, 0⟩, ⟨23, 0⟩, ⟨30, 0⟩, ⟨37, 0⟩, ⟨44, 0⟩, ⟨51, 0⟩, ⟨58, 0⟩, ⟨65, 0⟩]] := by
    rw [show List.range [splatW].length = [0] from rfl]
    unfold mapME
    rw [hf]
    rfl
  unfold make
  rw [if_neg (by decide)]
  rw [hm]
  decide

theorem boxInGridW : ∀ sp ∈ [splatW], boxInGrid gridW (splatBox gridW sp) := by
  intro sp hsp
  rw [List.mem_singleton] at hsp
  subst hsp
  rw [splatBoxW_eq]
  unfold boxInGrid
  decide

/-- Witness for claim C4 at the one-splat configuration `splatW` / `gridW`:
the constructor succeeds, `start` is sorted with last entry `ids.size()`, and
the slice for cell 16 (the first cell the splat occupies) is exactly `[0]`. -/
theorem make_start_ids_spec_witness :
    make [splatW] gridW = .ok treeW
      ∧ List.Sorted (· ≤ ·) treeW.start
      ∧ treeW.start.getLast? = some treeW.ids.length
      ∧ ((treeW.ids.drop (treeW.start.getD 16 0)).take
            (treeW.start.getD 17 0 - treeW.start.getD 16 0))
          = (List.range [splatW].length).filter fun j =>
              decide (16 ∈ positionsOf (maxLevelOf gridW)
                (splatBox gridW ([splatW].getD j default))) := by
  have h := make_start_ids_spec [splatW] gridW treeW boxInGridW makeW_eq
  exact ⟨makeW_eq, h.1, h.2.1, h.2.2 16 (by decide)⟩

end SplatTree

namespace Bucket

/-- Errors reported on the bucketer boundary: `DensityError` carries the
offending per-cell splat count (`bucket.h`); invalid-argument models
`std::invalid_argument` from `MLSGPU_ASSERT` precondition checks. -/
inductive BucketError : Type
  | densityError (cellSplats : ℕ)
  | invalidArgument
  | recursionLimit
deriving DecidableEq

/-- Modelled from the spec: octree node descriptor over the micro-cell grid
(spec 4.3); `bucket.cpp`, which holds `Bucket::internal::Node`, is absent from
`src/`. Coordinates are in units of the node's side `2 ^ level`. -/
structure Node : Type where
  x : ℕ
  y : ℕ
  z : ℕ
  level : ℕ
deriving DecidableEq

/-- Modelled from the spec: `Node::toMicro` lower corner,
`coords[i] << level` (spec 4.3 and `TestNode::testToMicro`). -/
def Node.lower (n : Node) : V3 ℕ := fun i => ![n.x, n.y, n.z] i * 2 ^ n.level

/-- Modelled from the spec: `Node::toMicro` upper corner,
`(coords[i] + 1) << level`. -/
def Node.upper (n : Node) : V3 ℕ := fun i => (![n.x, n.y, n.z] i + 1) * 2 ^ n.level

/-- Largest micro-cell extent over the three axes. -/
def max3 (micro : V3 ℕ) : ℕ :=
  max (max (micro 0) (micro 1)) (micro 2)

/-- Whether the child node at coordinates `(cx, cy, cz)` of side `2 ^ l`
starts inside the micro extents (children whose lower bound is `≥ micro` on
any axis are skipped entirely, spec 4.3). -/
def inB (micro : V3 ℕ) (l cx cy cz : ℕ) : Bool :=
  decide (cx * 2 ^ l < micro 0) && decide (cy * 2 ^ l < micro 1)
    && decide (cz * 2 ^ l < micro 2)

/-- Modelled from the spec: the depth-first traversal of `forEachNode`
(spec 4.3), returning the list of visited nodes in visit order.  A node is
always recorded; if `visit` answers `true` and the level is positive the
traversal descends into the (at most) eight children in Morton order
(x bit first, then y, then z), skipping children outside `micro`.  Order
fixed by `TestForEachNode::testSimple`. -/
def walk (micro : V3 ℕ) (visit : Node → Bool) : ℕ → ℕ → ℕ → ℕ → List Node
  | 0, x, y, z => [⟨x, y, z, 0⟩]
  | l + 1, x, y, z =>
    ⟨x, y, z, l + 1⟩ ::
      (if visit ⟨x, y, z, l + 1⟩ then
        (if inB micro l (2*x) (2*y) (2*z) then walk micro visit l (2*x) (2*y) (2*z) else [])
        ++ (if inB micro l (2*x+1) (2*y) (2*z) then walk micro visit l (2*x+1) (2*y) (2*z) else [])
        ++ (if inB micro l (2*x) (2*y+1) (2*z) then walk micro visit l (2*x) (2*y+1) (2*z) else [])
        ++ (if inB micro l (2*x+1) (2*y+1) (2*z) then walk micro visit l (2*x+1) (2*y+1) (2*z) else [])
        ++ (if inB micro l (2*x) (2*y) (2*z+1) then walk micro visit l (2*x) (2*y) (2*z+1) else [])
        ++ (if inB micro l (2*x+1) (2*y) (2*z+1) then walk micro visit l (2*x+1) (2*y) (2*z+1) else [])
        ++ (if inB micro l (2*x) (2*y+1) (2*z+1) then walk micro visit l (2*x) (2*y+1) (2*z+1) else [])
        ++ (if inB micro l (2*x+1) (2*y+1) (2*z+1) then walk micro visit l (2*x+1) (2*y+1) (2*z+1) else [])
      else [])

/-- Number of value bits of `Node::size_type`, modelled as 32
(`bucket.cpp` absent; `TestForEachNode::testAsserts` requires
`forEachNode(dims, 100, ...)` to be rejected). -/
def nodeSizeTypeDigits : ℕ := 32

/-- Modelled from the spec: `forEachNode(micro, levels, visit)` (spec 4.3).
The root node covering all of `micro` is `Node(0, 0, 0, levels - 1)` (fixed
by `TestForEachNode::testSimple`: `dims = (4,4,6)`, `levels = 4`, first
visited node `Node(0,0,0,3)`), so the precondition checked by
`MLSGPU_ASSERT(..., std::invalid_argument)` is `0 < levels`,
`levels ≤ digits` and `2 ^ (levels - 1) ≥ max(micro)` (fixed by
`TestForEachNode::testAsserts`: `levels = 3` with `dims = (4,4,6)` throws
although `2 ^ 3 ≥ 6`). -/
def forEachNode (micro : V3 ℕ) (levels : ℕ) (visit : Node → Bool) :
    Except BucketError (List Node) :=
  if 0 < levels ∧ levels ≤ nodeSizeTypeDigits ∧ max3 micro ≤ 2 ^ (levels - 1) then
    .ok (walk micro visit (levels - 1) 0 0 0)
  else .error .invalidArgument

/-- The visit predicate of `TestForEachNode::nodeFunc`: descend iff the node
contains the micro-cell `(2, 1, 4)`. -/
def nodeFuncW (n : Node) : Bool :=
  decide (n.lower 0 ≤ 2) && decide (2 < n.upper 0)
    && decide (n.lower 1 ≤ 1) && decide (1 < n.upper 1)
    && decide (n.lower 2 ≤ 4) && decide (4 < n.upper 2)

/-- The model reproduces `TestForEachNode::testSimple` exactly: `dims =
(4,4,6)`, `levels = 4` visits precisely the 15 nodes the test asserts, in
the asserted order. -/
theorem forEachNode_testSimple :
    forEachNode ![4, 4, 6] 4 nodeFuncW
      = .ok [⟨0,0,0,3⟩, ⟨0,0,0,2⟩, ⟨0,0,1,2⟩, ⟨0,0,2,1⟩, ⟨1,0,2,1⟩,
             ⟨2,0,4,0⟩, ⟨3,0,4,0⟩, ⟨2,1,4,0⟩, ⟨3,1,4,0⟩,
             ⟨2,0,5,0⟩, ⟨3,0,5,0⟩, ⟨2,1,5,0⟩, ⟨3,1,5,0⟩,
             ⟨0,1,2,1⟩, ⟨1,1,2,1⟩] := by
  decide

/-- The model reproduces `TestForEachNode::testAsserts`: with `dims =
(4,4,6)`, the calls with `levels = 100`, `0` and `3` all report
invalid-argument. -/
theorem forEachNode_testAsserts :
    forEachNode ![4, 4, 6] 100 (fun _ => false) = .error .invalidArgument
      ∧ forEachNode ![4, 4, 6] 0 (fun _ => false) = .error .invalidArgument
      ∧ forEachNode ![4, 4, 6] 3 (fun _ => false) = .error .invalidArgument := by
  decide

/-- Counterexample to claim C7: `micro = (4, 4, 6)` with `macroLevels = 3`
satisfies the claimed precondition (`0 < 3 ≤ floor(log2(MAX_DIM))` and
`2 ^ 3 = 8 ≥ 6 = max(micro)`), yet `forEachNode` reports invalid-argument —
as `TestForEachNode::testAsserts` demands of the implementation.  The root
covers only `2 ^ (macroLevels - 1)` micro-cells per axis. -/
theorem forEachNode_precondition_counterexample :
    (0 < 3 ∧ 3 ≤ nodeSizeTypeDigits ∧ max3 ![4, 4, 6] ≤ 2 ^ 3)
      ∧ forEachNode ![4, 4, 6] 3 (fun _ => false) = .error .invalidArgument := by
  decide

/-- C7 (amended): `forEachNode(micro, macroLevels, visit)` reports
invalid-argument exactly when `0 < macroLevels ≤ digits(size_type)` and
`2 ^ (macroLevels - 1) ≥ max(micro)` fails to hold; whenever that
precondition holds the traversal runs without raising invalid-argument,
returning the visit trace from the root `Node(0, 0, 0, macroLevels - 1)`. -/
theorem forEachNode_precondition_spec (micro : V3 ℕ) (levels : ℕ) (visit : Node → Bool) :
    (forEachNode micro levels visit = .error .invalidArgument
        ↔ ¬(0 < levels ∧ levels ≤ nodeSizeTypeDigits ∧ max3 micro ≤ 2 ^ (levels - 1)))
      ∧ ((0 < levels ∧ levels ≤ nodeSizeTypeDigits ∧ max3 micro ≤ 2 ^ (levels - 1)) →
          forEachNode micro levels visit = .ok (walk micro visit (levels - 1) 0 0 0)) := by
  unfold forEachNode
  by_cases h : 0 < levels ∧ levels ≤ nodeSizeTypeDigits ∧ max3 micro ≤ 2 ^ (levels - 1)
  · rw [if_pos h]
    exact ⟨by simp [h], fun _ => rfl⟩
  · rw [if_neg h]
    exact ⟨by simp [h], fun hc => absurd hc h⟩

/-- Witness for the amended C7 at `micro = (4, 4, 6)`, `macroLevels = 4`:
the precondition holds and the traversal succeeds. -/
theorem forEachNode_precondition_spec_witness :
    forEachNode ![4, 4, 6] 4 (fun _ => false)
      = .ok (walk ![4, 4, 6] (fun _ => false) 3 0 0 0) :=
  (forEachNode_precondition_spec ![4, 4, 6] 4 (fun _ => false)).2 (by decide)

end Bucket

namespace Bucket

/-- Modelled from the spec: per-splat record used throughout the bucketing
recursion.  `bucket.cpp` is absent from `src/`; per spec §4.4 the recursion
works on splats' axis-aligned bounding cubes (side `2·radius`, spec §3),
compared against sub-grids in grid coordinates.  `vlo`/`vhi` are the cube's
corners in grid vertex coordinates relative to the grid's lower extent:
`vlo = (pos - radius - ref)/spacing - lower` and symmetrically for `vhi`.
`scanId`/`splatId` identify the splat as a `(scan, index)` pair (spec §4.1). -/
structure SInfo : Type where
  scanId : ℕ
  splatId : ℕ
  vlo : V3 ℚ
  vhi : V3 ℚ

/-- Whether a splat's bounding cube meets the closed world box of the
micro-cell region `[a, b)` (in micro units, micro-cell side `μ` grid cells,
clamped to the grid's `N = numCells` extents): per axis the region spans
vertices `a·μ` to `min(b·μ, N)`, and two closed intervals meet iff each lower
bound is at most the other's upper bound.  Touching counts as intersecting,
as in `TestBucket::validate`. -/
def iB (μ : ℕ) (N : V3 ℕ) (a b : V3 ℕ) (s : SInfo) : Bool :=
  decide (∀ i : Fin 3,
    ((a i * μ : ℕ) : ℚ) ≤ s.vhi i ∧ s.vlo i ≤ ((min (b i * μ) (N i) : ℕ) : ℚ))

/-- Number of splats of `L` whose cube meets the region `[a, b)`. -/
def countIn (μ : ℕ) (N : V3 ℕ) (L : List SInfo) (a b : V3 ℕ) : ℕ :=
  L.countP (iB μ N a b)

/-- Grid-cell extent of the micro region `[a, b)` along axis `i` (clamped to
the grid). -/
def cellsOfBox (μ : ℕ) (N : V3 ℕ) (a b : V3 ℕ) (i : Fin 3) : ℕ :=
  min (b i * μ) (N i) - a i * μ

/-- All micro-cell coordinates of the region `[a, b)`, `z` outermost. -/
def microCellsOf (a b : V3 ℕ) : List (V3 ℕ) :=
  (List.range' (a 2) (b 2 - a 2)).flatMap fun z =>
    (List.range' (a 1) (b 1 - a 1)).flatMap fun y =>
      (List.range' (a 0) (b 0 - a 0)).map fun x => ![x, y, z]

/-- Number of splats of `L` covering the single micro-cell `m`. -/
def cellCount (μ : ℕ) (N : V3 ℕ) (L : List SInfo) (m : V3 ℕ) : ℕ :=
  countIn μ N L m (fun i => m i + 1)

/-- The worst (largest) per-micro-cell splat count over the region `[a, b)`
— the histogram maximum of spec §4.4 step 2. -/
def maxCellCount (μ : ℕ) (N : V3 ℕ) (L : List SInfo) (a b : V3 ℕ) : ℕ :=
  ((microCellsOf a b).map (cellCount μ N L)).foldr max 0

/-- Parameters fixed for one bucketing session: grid cell extents `N`,
micro-cell side `micro` (spec glossary; for this interface the micro-cell is
a single grid cell — bucket.h documents `DensityError` as too many splats
covering one cell, and `TestBucket::testSimple` requires subdivision below
`maxCells` — so `bucket` sets `micro := 1`), and the `maxSplats` /
`maxCells` / `maxSplit` budgets of `Bucket::bucket` (bucket.h lines
167–172). -/
structure BParams : Type where
  N : V3 ℕ
  micro : ℕ
  maxSplats : ℕ
  maxCells : ℕ
  maxSplit : ℕ

/-- Per-axis micro-cell extents of the whole grid, `ceil(N / micro)`
(spec §4.4 step 1). -/
def microExt (μ : ℕ) (N : V3 ℕ) : V3 ℕ := fun i => (N i + μ - 1) / μ

/-- One emitted bucket, the data handed to the `Processor` sink (bucket.h
line 165): the sub-grid's cell extents `cellLo`/`cellHi` relative to the
enclosing grid's lower corner, the splat count, and the coalesced ranges.
`a`/`b` record the same region in micro units (they determine
`cellLo`/`cellHi`; kept so statements about the emission can name the
region). -/
structure Block : Type where
  a : V3 ℕ
  b : V3 ℕ
  cellLo : V3 ℕ
  cellHi : V3 ℕ
  numSplats : ℕ
  ranges : List Range
deriving DecidableEq

/-- Emission of the region `[a, b)` with splat list `L` (spec §4.4 step 3):
the sub-grid's extents, the count, and the `RangeCollector`-coalesced ranges
of `L`'s identifiers in stream order. -/
def mkBlock (μ : ℕ) (N : V3 ℕ) (a b : V3 ℕ) (L : List SInfo) : Block :=
  ⟨a, b, fun i => a i * μ, fun i => min (b i * μ) (N i), L.length,
   runCollector (L.map fun s => (s.scanId, s.splatId))⟩

/-- Whether the region `[a, b)` with splat list `L` already satisfies the
per-bucket constraints (spec §4.4 step 3). -/
def okRegion (P : BParams) (L : List SInfo) (a b : V3 ℕ) : Bool :=
  decide (∀ i : Fin 3, cellsOfBox P.micro P.N a b i ≤ P.maxCells)
    && decide (L.length ≤ P.maxSplats)

/-- The eight octant offsets, in Morton order (x bit first, then y, then z),
the child order of `forEachNode` (spec §4.3). -/
def octOffsets : List (V3 ℕ) :=
  [![0, 0, 0], ![1, 0, 0], ![0, 1, 0], ![1, 1, 0],
   ![0, 0, 1], ![1, 0, 1], ![0, 1, 1], ![1, 1, 1]]

/-- Modelled from the spec: the sub-region selection pass (spec §4.4 step 4),
a `forEachNode` sweep whose visit predicate descends iff the node violates
the bucket constraints and its splat count exceeds `max(1, total/maxSplit)`;
a node the predicate refuses to descend into is recorded as one output
sub-region (clamped to the region's upper corner `bUp`), and nodes containing
no splats are dropped (emitted buckets must be non-empty, spec §4.4
semantics 3).  `c` is the node's lower corner in global micro coordinates and
`lvl` its level (side `2 ^ lvl` micro-cells). -/
def selNode (P : BParams) (L : List SInfo) (total : ℕ) (bUp : V3 ℕ) :
    ℕ → V3 ℕ → List (V3 ℕ × V3 ℕ)
  | 0, c =>
    if ∀ i : Fin 3, c i < bUp i then
      let b : V3 ℕ := fun i => min (c i + 1) (bUp i)
      if countIn P.micro P.N L c b = 0 then [] else [(c, b)]
    else []
  | l + 1, c =>
    if ∀ i : Fin 3, c i < bUp i then
      let b : V3 ℕ := fun i => min (c i + 2 ^ (l + 1)) (bUp i)
      let cnt := countIn P.micro P.N L c b
      if cnt = 0 then []
      else if (decide (∃ i : Fin 3, P.maxCells < cellsOfBox P.micro P.N c b i)
                 || decide (P.maxSplats < cnt))
               && decide (max 1 (total / P.maxSplit) < cnt) then
        octOffsets.flatMap fun d => selNode P L total bUp l (fun i => c i + d i * 2 ^ l)
      else [(c, b)]
    else []

/-- Largest per-axis micro extent of the region `[a, b)`. -/
def maxExt (a b : V3 ℕ) : ℕ :=
  max (b 0 - a 0) (max (b 1 - a 1) (b 2 - a 2))

/-- Modelled from the spec: the recursive refinement of spec §4.4 on the
region `[a, b)` (micro units) with splat list `L`.  Step 2's histogram
maximum is checked first (density failure); a region satisfying both budgets
is emitted (or silently completes if empty); otherwise the octree root —
level `Λ` minimal with `2^Λ ≥ maxExt` — is split into its eight level-`Λ−1`
children and the selection pass chooses the sub-regions, each recursed on
with its filtered splat list (step 5).  The recursion depth is bounded by
`ceil(log2(maxExt))` (spec §5); `fuel` makes that bound explicit, and its
exhaustion (`recursionLimit`) is proved unreachable from `bucket`. -/
def bucketRecurse (P : BParams) : ℕ → V3 ℕ → V3 ℕ → List SInfo →
    Except BucketError (List Block)
  | 0, _, _, _ => .error .recursionLimit
  | fuel + 1, a, b, L =>
    let m := maxCellCount P.micro P.N L a b
    if P.maxSplats < m then .error (.densityError m)
    else if okRegion P L a b then
      if L.length = 0 then .ok [] else .ok [mkBlock P.micro P.N a b L]
    else
      let lam := SplatTree.bitLen (maxExt a b - 1)
      let regs :=
        octOffsets.flatMap fun d =>
          selNode P L L.length b (lam - 1) (fun i => a i + d i * 2 ^ (lam - 1))
      match mapME (fun r => bucketRecurse P fuel r.1 r.2 (L.filter (iB P.micro P.N r.1 r.2)))
          regs with
      | .error e => .error e
      | .ok bss => .ok bss.flatten

/-- The splat-cube data of one splat in grid coordinates (spec §3 cube of
side `2·radius`, spec §4.2 `worldToVertex`, shifted by the grid's lower
extent). -/
def infoOf (g : Grid) (sc ix : ℕ) (sp : Splat) : SInfo :=
  ⟨sc, ix,
   fun i => (sp.pos i - sp.radius - g.ref i) / g.spacing - (g.lower i : ℚ),
   fun i => (sp.pos i + sp.radius - g.ref i) / g.spacing - (g.lower i : ℚ)⟩

/-- All `(scan, index)` identifiers of a splat source, in stream order. -/
def allIds (files : List (List Splat)) : List SplatId :=
  (List.range files.length).flatMap fun sc =>
    (List.range (files.getD sc []).length).map fun ix => (sc, ix)

/-- The splat a `(scan, index)` identifier denotes. -/
def splatOf (files : List (List Splat)) (id : SplatId) : Splat :=
  (files.getD id.1 []).getD id.2 default

/-- The precomputed cube data of every input splat, in stream order. -/
def mkInfos (files : List (List Splat)) (g : Grid) : List SInfo :=
  (allIds files).map fun id => infoOf g id.1 id.2 (splatOf files id)

/-- The bucketing session on precomputed cube data: reject bad budgets
(spec §6, invalid-argument), discard splats whose cube misses the grid
(spec §4.4 edge cases), and run the refinement on the whole grid with fuel
covering the recursion-depth bound.  The micro-cell side is one grid cell:
bucket.h documents `DensityError` per single cell, and the recursion must be
able to refine below `maxCells` (`TestBucket::testSimple` emits buckets
smaller than aligned `maxCells` blocks). -/
def bucketTop (allL : List SInfo) (g : Grid) (maxSplats maxCells maxSplit : ℕ) :
    Except BucketError (List Block) :=
  if 0 < maxSplats ∧ 0 < maxCells then
    let P : BParams := ⟨fun i => g.numCells i, 1, maxSplats, maxCells, maxSplit⟩
    let M : V3 ℕ := microExt 1 (fun i => g.numCells i)
    bucketRecurse P (maxExt (fun _ => 0) M + 1) (fun _ => 0) M
      (allL.filter (iB 1 (fun i => g.numCells i) (fun _ => 0) M))
  else .error .invalidArgument

/-- Modelled from the spec: `Bucket::bucket(splats, bbox, maxSplats,
maxCells, maxSplit, process)` (bucket.h lines 167–172, spec §4.4), with the
emitted buckets returned as a list instead of passed to the sink. -/
def bucket (files : List (List Splat)) (g : Grid)
    (maxSplats maxCells maxSplit : ℕ) : Except BucketError (List Block) :=
  bucketTop (mkInfos files g) g maxSplats maxCells maxSplit

/-- The worst per-cell splat count over the whole grid: the number of input
splats whose bounding cube meets the worst-covered single grid cell (the
micro-cell of this interface, per bucket.h's `DensityError`
documentation). -/
def densityMax (files : List (List Splat)) (g : Grid) : ℕ :=
  maxCellCount 1 (fun i => g.numCells i) (mkInfos files g)
    (fun _ => 0) (microExt 1 (fun i => g.numCells i))

end Bucket

namespace Bucket

theorem lt_microExt_iff {μ : ℕ} (N : V3 ℕ) (hμ : 0 < μ) (i : Fin 3) (x : ℕ) :
    x < microExt μ N i ↔ x * μ < N i := by
  unfold microExt
  constructor
  · intro h
    have h2 : (x + 1) * μ ≤ N i + μ - 1 := (Nat.le_div_iff_mul_le hμ).mp h
    have h3 : (x + 1) * μ = x * μ + μ := by ring
    omega
  · intro h
    have h2 : (x + 1) * μ ≤ N i + μ - 1 := by
      have h3 : (x + 1) * μ = x * μ + μ := by ring
      omega
    exact (Nat.le_div_iff_mul_le hμ).mpr h2

theorem le_microExt_mul {μ : ℕ} (N : V3 ℕ) (hμ : 0 < μ) (i : Fin 3) :
    N i ≤ microExt μ N i * μ := by
  unfold microExt
  rw [mul_comm]
  have hdm := Nat.div_add_mod (N i + μ - 1) μ
  have hr : (N i + μ - 1) % μ < μ := Nat.mod_lt _ hμ
  omega

theorem iB_mono {μ : ℕ} {N a b a' b' : V3 ℕ} {s : SInfo}
    (hsub : ∀ i, a i ≤ a' i ∧ b' i ≤ b i)
    (h : iB μ N a' b' s = true) : iB μ N a b s = true := by
  unfold iB at *
  simp only [decide_eq_true_eq] at *
  intro i
  obtain ⟨h1, h2⟩ := h i
  constructor
  · exact le_trans (by exact_mod_cast Nat.mul_le_mul_right μ (hsub i).1) h1
  · exact le_trans h2 (by exact_mod_cast min_le_min (Nat.mul_le_mul_right μ (hsub i).2) le_rfl)

theorem filter_filter_of_imp {α : Type} (L : List α) (p q : α → Bool)
    (h : ∀ s, q s = true → p s = true) : (L.filter p).filter q = L.filter q := by
  induction L with
  | nil => rfl
  | cons a l ih =>
    simp only [List.filter_cons]
    cases hpa : p a with
    | true =>
      cases hqa : q a with
      | true => simp [List.filter_cons, hqa, ih]
      | false => simp [List.filter_cons, hqa, ih]
    | false =>
      cases hqa : q a with
      | true => exact absurd (h a hqa) (by simp [hpa])
      | false => simp [hqa, ih]

theorem filter_iB_sub {μ : ℕ} {N a b a' b' : V3 ℕ} (L : List SInfo)
    (hsub : ∀ i, a i ≤ a' i ∧ b' i ≤ b i) :
    (L.filter (iB μ N a b)).filter (iB μ N a' b') = L.filter (iB μ N a' b') :=
  filter_filter_of_imp L _ _ (fun s hs => iB_mono hsub hs)

theorem countIn_filter_sub {μ : ℕ} {N a b a' b' : V3 ℕ} (L : List SInfo)
    (hsub : ∀ i, a i ≤ a' i ∧ b' i ≤ b i) :
    countIn μ N (L.filter (iB μ N a b)) a' b' = countIn μ N L a' b' := by
  unfold countIn
  rw [List.countP_eq_length_filter, List.countP_eq_length_filter,
    filter_iB_sub L hsub]

theorem countIn_mono_box {μ : ℕ} {N a b a' b' : V3 ℕ} (L : List SInfo)
    (hsub : ∀ i, a i ≤ a' i ∧ b' i ≤ b i) :
    countIn μ N L a' b' ≤ countIn μ N L a b := by
  unfold countIn
  exact List.countP_mono_left (fun s _ hs => iB_mono hsub hs)

theorem v3_eta (m : V3 ℕ) : ![m 0, m 1, m 2] = m := by
  funext i
  fin_cases i <;> rfl

theorem mem_microCellsOf {a b m : V3 ℕ} :
    m ∈ microCellsOf a b ↔ ∀ i, a i ≤ m i ∧ m i < b i := by
  unfold microCellsOf
  simp only [List.mem_flatMap, List.mem_map, List.mem_range'_1]
  constructor
  · rintro ⟨z, hz, y, hy, x, hx, rfl⟩
    intro i
    fin_cases i <;> simp [Matrix.cons_val_zero, Matrix.cons_val_one] <;> omega
  · intro h
    refine ⟨m 2, ?_, m 1, ?_, m 0, ?_, v3_eta m⟩
    · have := h 2; omega
    · have := h 1; omega
    · have := h 0; omega

theorem le_foldr_max {l : List ℕ} {x : ℕ} (hx : x ∈ l) : x ≤ l.foldr max 0 := by
  induction l with
  | nil => cases hx
  | cons a l ih =>
    rcases List.mem_cons.mp hx with h | h
    · subst h; exact le_max_left _ _
    · exact le_trans (ih h) (le_max_right _ _)

theorem foldr_max_le {l : List ℕ} {K : ℕ} (h : ∀ x ∈ l, x ≤ K) : l.foldr max 0 ≤ K := by
  induction l with
  | nil => exact Nat.zero_le K
  | cons a l ih =>
    exact max_le (h a (by simp)) (ih (fun x hx => h x (by simp [hx])))

theorem cellCount_le_maxCellCount {μ : ℕ} {N : V3 ℕ} (L : List SInfo) {a b m : V3 ℕ}
    (hm : ∀ i, a i ≤ m i ∧ m i < b i) :
    cellCount μ N L m ≤ maxCellCount μ N L a b :=
  le_foldr_max (List.mem_map.mpr ⟨m, mem_microCellsOf.mpr hm, rfl⟩)

theorem maxCellCount_le {μ : ℕ} {N : V3 ℕ} (L : List SInfo) {a b : V3 ℕ} {K : ℕ}
    (h : ∀ m : V3 ℕ, (∀ i, a i ≤ m i ∧ m i < b i) → cellCount μ N L m ≤ K) :
    maxCellCount μ N L a b ≤ K := by
  refine foldr_max_le ?_
  intro x hx
  obtain ⟨m, hm, rfl⟩ := List.mem_map.mp hx
  exact h m (mem_microCellsOf.mp hm)

theorem exists_cell_1d {μ N a b : ℕ} (hμ : 0 < μ) (hab : a < b) {vlo vhi : ℚ}
    (hv : vlo ≤ vhi)
    (h1 : ((a * μ : ℕ) : ℚ) ≤ vhi) (h2 : vlo ≤ ((min (b * μ) N : ℕ) : ℚ)) :
    ∃ m : ℕ, a ≤ m ∧ m < b ∧ ((m * μ : ℕ) : ℚ) ≤ vhi
      ∧ vlo ≤ ((min ((m + 1) * μ) N : ℕ) : ℚ) := by
  have hμQ : (0 : ℚ) < (μ : ℚ) := by exact_mod_cast hμ
  have hN : vlo ≤ (N : ℚ) := le_trans h2 (by exact_mod_cast (min_le_right (b * μ) N : _ ≤ N))
  set k : ℤ := ⌊vlo / (μ : ℚ)⌋ with hk
  have hkle : (k : ℚ) * μ ≤ vlo := by
    have := Int.floor_le (vlo / (μ : ℚ))
    calc (k : ℚ) * μ ≤ vlo / μ * μ := by
          exact mul_le_mul_of_nonneg_right this (le_of_lt hμQ)
      _ = vlo := div_mul_cancel₀ vlo (ne_of_gt hμQ)
  have hklt : vlo < ((k : ℚ) + 1) * μ := by
    have := Int.lt_floor_add_one (vlo / (μ : ℚ))
    calc vlo = vlo / μ * μ := (div_mul_cancel₀ vlo (ne_of_gt hμQ)).symm
      _ < ((k : ℚ) + 1) * μ := by
          exact mul_lt_mul_of_pos_right (by exact_mod_cast this) hμQ
  by_cases hka : k ≤ (a : ℤ)
  · refine ⟨a, le_refl a, hab, h1, ?_⟩
    have hle : vlo ≤ (((a + 1) * μ : ℕ) : ℚ) := by
      have : ((k : ℚ) + 1) * μ ≤ (((a + 1) * μ : ℕ) : ℚ) := by
        push_cast
        have : (k : ℚ) + 1 ≤ (a : ℚ) + 1 := by exact_mod_cast add_le_add_right hka 1
        exact mul_le_mul_of_nonneg_right this (le_of_lt hμQ)
      exact le_trans (le_of_lt hklt) this
    rw [Nat.cast_min]
    exact le_min hle hN
  · push_neg at hka
    by_cases hkb : (b : ℤ) - 1 ≤ k
    · refine ⟨b - 1, by omega, by omega, ?_, ?_⟩
      · have hcast : (((b - 1) * μ : ℕ) : ℚ) ≤ (k : ℚ) * μ := by
          have hb1 : ((b - 1 : ℕ) : ℤ) ≤ k := by
            rw [Nat.cast_sub (by omega : 1 ≤ b)]
            exact_mod_cast hkb
          have : (((b - 1 : ℕ) : ℚ)) ≤ (k : ℚ) := by exact_mod_cast hb1
          push_cast
          exact mul_le_mul_of_nonneg_right this (le_of_lt hμQ)
        exact le_trans hcast (le_trans hkle hv)
      · have hbb : b - 1 + 1 = b := by omega
        rw [hbb]
        exact h2
    · push_neg at hkb
      have hk0 : 0 ≤ k := le_trans (by exact_mod_cast Nat.zero_le a) (le_of_lt hka)
      have hkQ : ((k.toNat : ℕ) : ℚ) = (k : ℚ) := by
        exact_mod_cast congrArg (fun z : ℤ => (z : ℚ)) (Int.toNat_of_nonneg hk0)
      refine ⟨k.toNat, by omega, by omega, ?_, ?_⟩
      · have : ((k.toNat * μ : ℕ) : ℚ) = (k : ℚ) * μ := by
          rw [Nat.cast_mul, hkQ]
        rw [this]
        exact le_trans hkle hv
      · have hle : vlo ≤ (((k.toNat + 1) * μ : ℕ) : ℚ) := by
          have : (((k.toNat + 1) * μ : ℕ) : ℚ) = ((k : ℚ) + 1) * μ := by
            rw [Nat.cast_mul, Nat.cast_add, Nat.cast_one, hkQ]
          rw [this]
          exact le_of_lt hklt
        rw [Nat.cast_min]
        exact le_min hle hN

theorem exists_cell_3d {μ : ℕ} {N a b : V3 ℕ} (hμ : 0 < μ)
    (hab : ∀ i, a i < b i) (s : SInfo)
    (hv : ∀ i, s.vlo i ≤ s.vhi i) (h : iB μ N a b s = true) :
    ∃ m : V3 ℕ, (∀ i, a i ≤ m i ∧ m i < b i)
      ∧ iB μ N m (fun i => m i + 1) s = true := by
  unfold iB at *
  simp only [decide_eq_true_eq] at *
  have hx := fun i => exists_cell_1d (μ := μ) (N := N i) hμ (hab i) (hv i) (h i).1 (h i).2
  choose m hm1 hm2 hm3 hm4 using hx
  exact ⟨m, fun i => ⟨hm1 i, hm2 i⟩, fun i => ⟨hm3 i, hm4 i⟩⟩

end Bucket

namespace Bucket

theorem octOffsets_le : ∀ d ∈ octOffsets, ∀ i, d i ≤ 1 := by decide

theorem mem_octOffsets_of_le (d : V3 ℕ) (hd : ∀ i, d i ≤ 1) : d ∈ octOffsets := by
  have he : ![d 0, d 1, d 2] = d := v3_eta d
  rcases Nat.le_one_iff_eq_zero_or_eq_one.mp (hd 0) with h0 | h0 <;>
    rcases Nat.le_one_iff_eq_zero_or_eq_one.mp (hd 1) with h1 | h1 <;>
      rcases Nat.le_one_iff_eq_zero_or_eq_one.mp (hd 2) with h2 | h2 <;>
        (rw [← he, h0, h1, h2]; decide)

theorem octOffsets_pairwise_ne : octOffsets.Pairwise (· ≠ ·) := by decide

theorem pairwise_flatMap {α β : Type} {R : β → β → Prop} {l : List α} {f : α → List β}
    (hin : ∀ a ∈ l, (f a).Pairwise R)
    (hcross : l.Pairwise (fun a b => ∀ x ∈ f a, ∀ y ∈ f b, R x y)) :
    (l.flatMap f).Pairwise R := by
  induction l with
  | nil => exact List.Pairwise.nil
  | cons a l ih =>
    obtain ⟨hhead, htail⟩ := List.pairwise_cons.mp hcross
    rw [List.flatMap_cons, List.pairwise_append]
    refine ⟨hin a (by simp), ih (fun x hx => hin x (by simp [hx])) htail, ?_⟩
    intro x hx y hy
    obtain ⟨b, hb, hyb⟩ := List.mem_flatMap.mp hy
    exact hhead b hb x hx y hyb

theorem selNode_mem (P : BParams) (L : List SInfo) (total : ℕ) (bUp : V3 ℕ) :
    ∀ (lvl : ℕ) (c : V3 ℕ), ∀ r ∈ selNode P L total bUp lvl c,
      (∀ i, c i ≤ r.1 i) ∧ (∀ i, r.1 i < r.2 i)
        ∧ (∀ i, r.2 i ≤ min (c i + 2 ^ lvl) (bUp i))
        ∧ 1 ≤ countIn P.micro P.N L r.1 r.2 := by
  intro lvl
  induction lvl with
  | zero =>
    intro c r hr
    unfold selNode at hr
    split at hr
    case isTrue hguard =>
      dsimp only at hr
      split at hr
      case isTrue => cases hr
      case isFalse hcnt =>
        rw [List.mem_singleton] at hr
        subst hr
        dsimp only
        refine ⟨fun i => le_refl _, fun i => lt_min (by omega) (hguard i),
          fun i => by simp [pow_zero], by omega⟩
    case isFalse => cases hr
  | succ l ih =>
    intro c r hr
    unfold selNode at hr
    split at hr
    case isTrue hguard =>
      dsimp only at hr
      split at hr
      case isTrue => cases hr
      case isFalse hcnt =>
        split at hr
        case isTrue hdes =>
          rw [List.mem_flatMap] at hr
          obtain ⟨d, hd, hr⟩ := hr
          obtain ⟨g1, g2, g3, g4⟩ := ih _ r hr
          have hdle : ∀ i, d i ≤ 1 := octOffsets_le d hd
          refine ⟨fun i => le_trans (Nat.le_add_right _ _) (g1 i), g2, fun i => ?_, g4⟩
          refine le_trans (g3 i) (min_le_min ?_ le_rfl)
          have hd2 : d i * 2 ^ l ≤ 2 ^ l := by
            calc d i * 2 ^ l ≤ 1 * 2 ^ l := Nat.mul_le_mul_right _ (hdle i)
              _ = 2 ^ l := one_mul _
          have hps : 2 ^ (l + 1) = 2 ^ l * 2 := pow_succ 2 l
          omega
        case isFalse hdes =>
          rw [List.mem_singleton] at hr
          subst hr
          dsimp only
          have hpos : 0 < 2 ^ (l + 1) := Nat.pos_pow_of_pos _ (by omega)
          exact ⟨fun i => le_refl _, fun i => lt_min (by omega) (hguard i),
            fun i => le_refl _, by omega⟩
    case isFalse => cases hr

theorem selNode_cover (P : BParams) (L : List SInfo) (total : ℕ) (bUp : V3 ℕ) :
    ∀ (lvl : ℕ) (c : V3 ℕ) (m : V3 ℕ),
      (∀ i, c i ≤ m i ∧ m i < min (c i + 2 ^ lvl) (bUp i)) →
      1 ≤ cellCount P.micro P.N L m →
      ∃ r ∈ selNode P L total bUp lvl c, ∀ i, r.1 i ≤ m i ∧ m i < r.2 i := by
  intro lvl
  induction lvl with
  | zero =>
    intro c m hm hc
    have hguard : ∀ i : Fin 3, c i < bUp i := by
      intro i
      have h1 := (hm i).1
      have h2 := lt_of_lt_of_le (hm i).2 (min_le_right _ _)
      omega
    have hsub : ∀ i, c i ≤ m i ∧ m i + 1 ≤ min (c i + 1) (bUp i) := by
      intro i
      have h2 := (hm i).2
      rw [pow_zero] at h2
      exact ⟨(hm i).1, by omega⟩
    have hcnt : countIn P.micro P.N L c (fun i => min (c i + 1) (bUp i)) ≠ 0 := by
      have hmn : countIn P.micro P.N L m (fun i => m i + 1)
          ≤ countIn P.micro P.N L c (fun i => min (c i + 1) (bUp i)) :=
        countIn_mono_box L (fun i => hsub i)
      unfold cellCount countIn at hc
      unfold countIn at hmn ⊢
      omega
    unfold selNode
    rw [if_pos hguard]
    dsimp only
    rw [if_neg hcnt]
    refine ⟨(c, fun i => min (c i + 1) (bUp i)), List.mem_singleton.mpr rfl, fun i => ?_⟩
    have h2 := (hm i).2
    rw [pow_zero] at h2
    exact ⟨(hm i).1, h2⟩
  | succ l ih =>
    intro c m hm hc
    have hguard : ∀ i : Fin 3, c i < bUp i := by
      intro i
      have h1 := (hm i).1
      have h2 := lt_of_lt_of_le (hm i).2 (min_le_right _ _)
      omega
    have hsub : ∀ i, c i ≤ m i ∧ m i + 1 ≤ min (c i + 2 ^ (l + 1)) (bUp i) := by
      intro i
      have h2 := (hm i).2
      exact ⟨(hm i).1, by omega⟩
    have hcnt : countIn P.micro P.N L c (fun i => min (c i + 2 ^ (l + 1)) (bUp i)) ≠ 0 := by
      have hmn : countIn P.micro P.N L m (fun i => m i + 1)
          ≤ countIn P.micro P.N L c (fun i => min (c i + 2 ^ (l + 1)) (bUp i)) :=
        countIn_mono_box L (fun i => hsub i)
      unfold cellCount countIn at hc
      unfold countIn at hmn ⊢
      omega
    unfold selNode
    rw [if_pos hguard]
    dsimp only
    rw [if_neg hcnt]
    split
    case isTrue hdes =>
      have key : ∃ d : V3 ℕ, (∀ i, d i ≤ 1) ∧
          ∀ i, c i + d i * 2 ^ l ≤ m i ∧ m i < min (c i + d i * 2 ^ l + 2 ^ l) (bUp i) := by
        refine ⟨fun i => if m i < c i + 2 ^ l then 0 else 1, fun i => ?_, fun i => ?_⟩
        · dsimp only
          split <;> omega
        · have h1 := (hm i).1
          have h2 := lt_of_lt_of_le (hm i).2 (min_le_left _ _)
          have h3 := lt_of_lt_of_le (hm i).2 (min_le_right _ _)
          have hps : 2 ^ (l + 1) = 2 ^ l * 2 := pow_succ 2 l
          dsimp only
          by_cases hmi : m i < c i + 2 ^ l
          · rw [if_pos hmi]
            exact ⟨by omega, lt_min (by omega) h3⟩
          · rw [if_neg hmi]
            push_neg at hmi
            exact ⟨by omega, lt_min (by omega) h3⟩
      obtain ⟨d, hdle, hchild⟩ := key
      obtain ⟨r, hr, hrm⟩ := ih (fun j => c j + d j * 2 ^ l) m (fun i => hchild i) hc
      exact ⟨r, List.mem_flatMap.mpr ⟨d, mem_octOffsets_of_le d hdle, hr⟩, hrm⟩
    case isFalse hdes =>
      exact ⟨(c, fun i => min (c i + 2 ^ (l + 1)) (bUp i)),
        List.mem_singleton.mpr rfl, fun i => ⟨(hm i).1, (hm i).2⟩⟩

theorem selNode_pairwise (P : BParams) (L : List SInfo) (total : ℕ) (bUp : V3 ℕ) :
    ∀ (lvl : ℕ) (c : V3 ℕ),
      (selNode P L total bUp lvl c).Pairwise
        (fun r1 r2 => ∃ i, r1.2 i ≤ r2.1 i ∨ r2.2 i ≤ r1.1 i) := by
  intro lvl
  induction lvl with
  | zero =>
    intro c
    unfold selNode
    split
    · dsimp only
      split
      · exact List.Pairwise.nil
      · exact List.pairwise_singleton _ _
    · exact List.Pairwise.nil
  | succ l ih =>
    intro c
    unfold selNode
    split
    case isTrue hguard =>
      dsimp only
      split
      case isTrue => exact List.Pairwise.nil
      case isFalse hcnt =>
        split
        case isTrue hdes =>
          refine pairwise_flatMap (fun d _ => ih _) ?_
          refine List.Pairwise.imp_of_mem ?_ octOffsets_pairwise_ne
          intro d d' hd hd' hne x hx y hy
          have hex : ∃ i, d i ≠ d' i := by
            by_contra hcon
            push_neg at hcon
            exact hne (funext hcon)
          obtain ⟨i, hi⟩ := hex
          obtain ⟨x1, _, x3, _⟩ := selNode_mem P L total bUp l _ x hx
          obtain ⟨y1, _, y3, _⟩ := selNode_mem P L total bUp l _ y hy
          refine ⟨i, ?_⟩
          rcases Nat.lt_or_ge (d i) (d' i) with hlt | hge
          · left
            have h1 : x.2 i ≤ c i + d i * 2 ^ l + 2 ^ l := le_trans (x3 i) (min_le_left _ _)
            have h2 : c i + d' i * 2 ^ l ≤ y.1 i := y1 i
            have h3 : (d i + 1) * 2 ^ l ≤ d' i * 2 ^ l := Nat.mul_le_mul_right _ hlt
            have h4 : (d i + 1) * 2 ^ l = d i * 2 ^ l + 2 ^ l := by ring
            omega
          · have hlt' : d' i < d i := lt_of_le_of_ne hge (Ne.symm hi)
            right
            have h1 : y.2 i ≤ c i + d' i * 2 ^ l + 2 ^ l := le_trans (y3 i) (min_le_left _ _)
            have h2 : c i + d i * 2 ^ l ≤ x.1 i := x1 i
            have h3 : (d' i + 1) * 2 ^ l ≤ d i * 2 ^ l := Nat.mul_le_mul_right _ hlt'
            have h4 : (d' i + 1) * 2 ^ l = d' i * 2 ^ l + 2 ^ l := by ring
            omega
        case isFalse hdes => exact List.pairwise_singleton _ _
    case isFalse => exact List.Pairwise.nil

end Bucket

namespace Bucket

/-- Strict lexicographic order on `(scan, index)` splat identifiers — the
stream order of spec §4.1's ordering contract. -/
def lexLt (p q : SplatId) : Prop := p.1 < q.1 ∨ (p.1 = q.1 ∧ p.2 < q.2)

theorem Range.single_expand (s i : ℕ) : (⟨s, 1, i⟩ : Range).expand = [(s, i)] := rfl

theorem collectGo_expand : ∀ (ids : List SplatId) (cur : Range),
    ids.Pairwise lexLt →
    (cur.size = 0 ∨ ∀ id ∈ ids, lexLt (cur.scan, cur.start + cur.size - 1) id) →
    expandRanges (collectGo cur ids) = cur.expand ++ ids := by
  intro ids
  induction ids with
  | nil =>
    intro cur _ _
    unfold collectGo
    by_cases h : cur.size > 0
    · rw [if_pos h]
      simp [expandRanges]
    · rw [if_neg h]
      have h0 : cur.size = 0 := by omega
      simp [expandRanges, Range.expand, h0]
  | cons id rest ih =>
    intro cur hpw hinv
    obtain ⟨hhead, htail⟩ := List.pairwise_cons.mp hpw
    by_cases h0 : cur.size = 0
    · have happ : cur.append id.1 id.2 = (true, ⟨id.1, 1, id.2⟩) := by
        unfold Range.append
        rw [if_pos h0]
      have hstep : collectGo cur (id :: rest) = collectGo ⟨id.1, 1, id.2⟩ rest := by
        simp only [collectGo]
        rw [happ]
      rw [hstep, ih ⟨id.1, 1, id.2⟩ htail (Or.inr ?_)]
      · have hce : cur.expand = [] := by
          unfold Range.expand
          rw [h0]
          rfl
        rw [hce, Range.single_expand]
        simp
      · intro id' hid'
        have hlt := hhead id' hid'
        unfold lexLt at hlt ⊢
        dsimp only
        omega
    · have hinv' : ∀ id' ∈ id :: rest, lexLt (cur.scan, cur.start + cur.size - 1) id' := by
        rcases hinv with h | h
        · exact absurd h h0
        · exact h
      have hlex := hinv' id (by simp)
      by_cases hmid : id.1 = cur.scan ∧ cur.start ≤ id.2 ∧ id.2 < cur.start + cur.size
      · exfalso
        obtain ⟨hm1, hm2, hm3⟩ := hmid
        unfold lexLt at hlex
        dsimp only at hlex
        omega
      · by_cases hext : id.1 = cur.scan ∧ id.2 = cur.start + cur.size ∧ cur.size < sizeTypeMax
        · have happ : cur.append id.1 id.2 = (true, ⟨cur.scan, cur.size + 1, cur.start⟩) := by
            unfold Range.append
            rw [if_neg h0, if_neg hmid, if_pos hext]
          have hstep : collectGo cur (id :: rest)
              = collectGo ⟨cur.scan, cur.size + 1, cur.start⟩ rest := by
            simp only [collectGo]
            rw [happ]
          rw [hstep, ih _ htail (Or.inr ?_)]
          · obtain ⟨he1, he2, he3⟩ := hext
            have hexp : (⟨cur.scan, cur.size + 1, cur.start⟩ : Range).expand
                = cur.expand ++ [id] := by
              unfold Range.expand
              rw [List.range_succ, List.map_append]
              have hid : ((cur.scan, cur.start + cur.size) : SplatId) = id := by
                rw [← he1, ← he2]
              simp [hid]
            rw [hexp]
            simp
          · intro id' hid'
            have hlt := hhead id' hid'
            obtain ⟨he1, he2, he3⟩ := hext
            unfold lexLt at hlt ⊢
            dsimp only
            omega
        · have happ : cur.append id.1 id.2 = (false, cur) := by
            unfold Range.append
            rw [if_neg h0, if_neg hmid, if_neg hext]
          have hstep : collectGo cur (id :: rest)
              = cur :: collectGo ⟨id.1, 1, id.2⟩ rest := by
            simp only [collectGo]
            rw [happ]
            rfl
          rw [hstep]
          have hflat : expandRanges (cur :: collectGo ⟨id.1, 1, id.2⟩ rest)
              = cur.expand ++ expandRanges (collectGo ⟨id.1, 1, id.2⟩ rest) := by
            unfold expandRanges
            rw [List.flatMap_cons]
          rw [hflat, ih _ htail (Or.inr ?_)]
          · rw [Range.single_expand]
            simp
          · intro id' hid'
            have hlt := hhead id' hid'
            unfold lexLt at hlt ⊢
            dsimp only
            omega

theorem runCollector_expand (ids : List SplatId) (h : ids.Pairwise lexLt) :
    expandRanges (runCollector ids) = ids := by
  unfold runCollector
  rw [collectGo_expand ids Range.empty h (Or.inl rfl)]
  have he : Range.empty.expand = [] := rfl
  rw [he]
  rfl

theorem pairwise_allIds (files : List (List Splat)) : (allIds files).Pairwise lexLt := by
  unfold allIds
  refine pairwise_flatMap ?_ ?_
  · intro sc _
    rw [List.pairwise_map]
    exact (List.pairwise_lt_range _).imp (fun h => Or.inr ⟨rfl, h⟩)
  · refine (List.pairwise_lt_range _).imp ?_
    intro a b hlt
    intro x hx y hy
    obtain ⟨ix, _, rfl⟩ := List.mem_map.mp hx
    obtain ⟨iy, _, rfl⟩ := List.mem_map.mp hy
    exact Or.inl hlt

theorem mkInfos_pairwise (files : List (List Splat)) (g : Grid) :
    (mkInfos files g).Pairwise
      (fun s1 s2 => lexLt (s1.scanId, s1.splatId) (s2.scanId, s2.splatId)) := by
  unfold mkInfos
  rw [List.pairwise_map]
  refine (pairwise_allIds files).imp ?_
  intro a b hab
  dsimp only [infoOf]
  exact hab

end Bucket

namespace Bucket

/-- Grid-disjointness of two emitted blocks, in micro units: some axis
separates their regions. -/
def blockDisj (B1 B2 : Block) : Prop := ∃ i, B1.b i ≤ B2.a i ∨ B2.b i ≤ B1.a i

/-- The invariant of an emitted block: a non-empty sub-region whose per-axis
cell extent is within budget, emitted with exactly the splats whose cubes
meet it (coalesced from the stream order), counting between 1 and
`maxSplats`. -/
def GoodB (P : BParams) (allL : List SInfo) (B : Block) : Prop :=
  (∀ i, B.a i < B.b i)
    ∧ B = mkBlock P.micro P.N B.a B.b (allL.filter (iB P.micro P.N B.a B.b))
    ∧ (∀ i, cellsOfBox P.micro P.N B.a B.b i ≤ P.maxCells)
    ∧ 0 < B.numSplats ∧ B.numSplats ≤ P.maxSplats

theorem maxCellCount_filter_region (μ : ℕ) (N : V3 ℕ) (allL : List SInfo) (Ra Rb : V3 ℕ) :
    maxCellCount μ N (allL.filter (iB μ N Ra Rb)) Ra Rb
      = maxCellCount μ N allL Ra Rb := by
  unfold maxCellCount
  congr 1
  refine List.map_congr_left ?_
  intro m hm
  have hmm := mem_microCellsOf.mp hm
  unfold cellCount
  exact countIn_filter_sub allL (fun i => ⟨(hmm i).1, by have := (hmm i).2; omega⟩)

theorem maxCellCount_sub_le (μ : ℕ) (N : V3 ℕ) (allL : List SInfo)
    {Ra Rb a2 b2 : V3 ℕ} (hsub : ∀ i, a2 i ≤ Ra i ∧ Rb i ≤ b2 i) :
    maxCellCount μ N allL Ra Rb ≤ maxCellCount μ N allL a2 b2 := by
  refine maxCellCount_le allL ?_
  intro m hm
  exact cellCount_le_maxCellCount allL
    (fun i => ⟨le_trans (hsub i).1 (hm i).1, lt_of_lt_of_le (hm i).2 (hsub i).2⟩)

theorem mapME_congr {ε α β : Type} (f g : α → Except ε β) (l : List α)
    (h : ∀ a ∈ l, f a = g a) : mapME f l = mapME g l := by
  induction l with
  | nil => rfl
  | cons a l ih =>
    simp only [mapME]
    rw [h a (by simp), ih (fun x hx => h x (by simp [hx]))]

theorem selChildren_pairwise (P : BParams) (L : List SInfo) (total : ℕ) (bUp : V3 ℕ)
    (l : ℕ) (c : V3 ℕ) :
    (octOffsets.flatMap fun d =>
        selNode P L total bUp l (fun i => c i + d i * 2 ^ l)).Pairwise
      (fun r1 r2 => ∃ i, r1.2 i ≤ r2.1 i ∨ r2.2 i ≤ r1.1 i) := by
  refine pairwise_flatMap (fun d _ => selNode_pairwise P L total bUp l _) ?_
  refine List.Pairwise.imp_of_mem ?_ octOffsets_pairwise_ne
  intro d d' hd hd' hne x hx y hy
  have hex : ∃ i, d i ≠ d' i := by
    by_contra hcon
    push_neg at hcon
    exact hne (funext hcon)
  obtain ⟨i, hi⟩ := hex
  obtain ⟨x1, _, x3, _⟩ := selNode_mem P L total bUp l _ x hx
  obtain ⟨y1, _, y3, _⟩ := selNode_mem P L total bUp l _ y hy
  refine ⟨i, ?_⟩
  rcases Nat.lt_or_ge (d i) (d' i) with hlt | hge
  · left
    have h1 : x.2 i ≤ c i + d i * 2 ^ l + 2 ^ l := le_trans (x3 i) (min_le_left _ _)
    have h2 : c i + d' i * 2 ^ l ≤ y.1 i := y1 i
    have h3 : (d i + 1) * 2 ^ l ≤ d' i * 2 ^ l := Nat.mul_le_mul_right _ hlt
    have h4 : (d i + 1) * 2 ^ l = d i * 2 ^ l + 2 ^ l := by ring
    omega
  · have hlt' : d' i < d i := lt_of_le_of_ne hge (Ne.symm hi)
    right
    have h1 : y.2 i ≤ c i + d' i * 2 ^ l + 2 ^ l := le_trans (y3 i) (min_le_left _ _)
    have h2 : c i + d i * 2 ^ l ≤ x.1 i := x1 i
    have h3 : (d' i + 1) * 2 ^ l ≤ d i * 2 ^ l := Nat.mul_le_mul_right _ hlt'
    have h4 : (d' i + 1) * 2 ^ l = d' i * 2 ^ l + 2 ^ l := by ring
    omega

theorem mapME_regs (P : BParams) (allL : List SInfo) (fuel : ℕ)
    (hrec : ∀ r : V3 ℕ × V3 ℕ,
      (∀ i, r.1 i < r.2 i ∧ r.2 i ≤ microExt P.micro P.N i) →
      maxExt r.1 r.2 ≤ fuel →
      ∃ bs, bucketRecurse P fuel r.1 r.2 (allL.filter (iB P.micro P.N r.1 r.2)) = .ok bs
        ∧ (∀ B ∈ bs, GoodB P allL B ∧ (∀ i, r.1 i ≤ B.a i ∧ B.b i ≤ r.2 i))
        ∧ bs.Pairwise blockDisj
        ∧ (∀ s ∈ allL, iB P.micro P.N r.1 r.2 s = true →
            ∃ B ∈ bs, iB P.micro P.N B.a B.b s = true)) :
    ∀ regs : List (V3 ℕ × V3 ℕ),
      (∀ r ∈ regs, (∀ i, r.1 i < r.2 i ∧ r.2 i ≤ microExt P.micro P.N i)
        ∧ maxExt r.1 r.2 ≤ fuel) →
      regs.Pairwise (fun r1 r2 => ∃ i, r1.2 i ≤ r2.1 i ∨ r2.2 i ≤ r1.1 i) →
      ∃ bss, mapME (fun r => bucketRecurse P fuel r.1 r.2
          (allL.filter (iB P.micro P.N r.1 r.2))) regs = .ok bss
        ∧ (∀ B ∈ bss.flatten, GoodB P allL B
            ∧ ∃ r ∈ regs, ∀ i, r.1 i ≤ B.a i ∧ B.b i ≤ r.2 i)
        ∧ bss.flatten.Pairwise blockDisj
        ∧ (∀ s ∈ allL, ∀ r ∈ regs, iB P.micro P.N r.1 r.2 s = true →
            ∃ B ∈ bss.flatten, iB P.micro P.N B.a B.b s = true) := by
  intro regs
  induction regs with
  | nil =>
    intro _ _
    exact ⟨[], rfl, by simp, by simp, by simp⟩
  | cons r rs ihr =>
    intro hall hpw
    obtain ⟨hhead, htail⟩ := List.pairwise_cons.mp hpw
    obtain ⟨bs, hbs, hBprops, hBpw, hBcov⟩ :=
      hrec r (hall r (by simp)).1 (hall r (by simp)).2
    obtain ⟨bss, hbss, hBprops', hBpw', hBcov'⟩ :=
      ihr (fun r' hr' => hall r' (by simp [hr'])) htail
    refine ⟨bs :: bss, ?_, ?_, ?_, ?_⟩
    · simp only [mapME]
      rw [hbs, hbss]
    · intro B hB
      rw [List.flatten_cons] at hB
      rcases List.mem_append.mp hB with h | h
      · exact ⟨(hBprops B h).1, ⟨r, by simp, (hBprops B h).2⟩⟩
      · obtain ⟨g, r', hr', hsub⟩ := hBprops' B h
        exact ⟨g, r', by simp [hr'], hsub⟩
    · rw [List.flatten_cons, List.pairwise_append]
      refine ⟨hBpw, hBpw', ?_⟩
      intro B hB B' hB'
      obtain ⟨gB, hBsub⟩ := hBprops B hB
      obtain ⟨gB', r', hr', hB'sub⟩ := hBprops' B' hB'
      obtain ⟨i, hd⟩ := hhead r' hr'
      refine ⟨i, ?_⟩
      rcases hd with h | h
      · left
        have h1 := (hBsub i).2
        have h2 := (hB'sub i).1
        omega
      · right
        have h1 := (hB'sub i).2
        have h2 := (hBsub i).1
        omega
    · intro s hs r' hr' hiB
      rw [List.flatten_cons]
      rcases List.mem_cons.mp hr' with h | h
      · subst h
        obtain ⟨B, hB, hiB'⟩ := hBcov s hs hiB
        exact ⟨B, List.mem_append.mpr (Or.inl hB), hiB'⟩
      · obtain ⟨B, hB, hiB'⟩ := hBcov' s hs r' h hiB
        exact ⟨B, List.mem_append.mpr (Or.inr hB), hiB'⟩

end Bucket

namespace Bucket

theorem sub_le_maxExt (a b : V3 ℕ) (i : Fin 3) : b i - a i ≤ maxExt a b := by
  unfold maxExt
  fin_cases i
  · exact le_max_left _ _
  · exact le_trans (le_max_left _ _) (le_max_right _ _)
  · exact le_trans (le_max_right _ _) (le_max_right _ _)

theorem bucketRecurse_master (P : BParams) (allL : List SInfo)
    (hμ : 0 < P.micro) (hμC : P.micro ≤ P.maxCells)
    (hvv : ∀ s ∈ allL, ∀ i, s.vlo i ≤ s.vhi i)
    (hdens : maxCellCount P.micro P.N allL (fun _ => 0) (microExt P.micro P.N)
      ≤ P.maxSplats) :
    ∀ (fuel : ℕ) (Ra Rb : V3 ℕ),
      (∀ i, Ra i < Rb i ∧ Rb i ≤ microExt P.micro P.N i) →
      maxExt Ra Rb ≤ fuel →
      ∃ bs, bucketRecurse P fuel Ra Rb (allL.filter (iB P.micro P.N Ra Rb)) = .ok bs
        ∧ (∀ B ∈ bs, GoodB P allL B ∧ (∀ i, Ra i ≤ B.a i ∧ B.b i ≤ Rb i))
        ∧ bs.Pairwise blockDisj
        ∧ (∀ s ∈ allL, iB P.micro P.N Ra Rb s = true →
            ∃ B ∈ bs, iB P.micro P.N B.a B.b s = true) := by
  intro fuel
  induction fuel with
  | zero =>
    intro Ra Rb hbox hfuel
    exfalso
    have h0 := (hbox 0).1
    unfold maxExt at hfuel
    omega
  | succ fuel ih =>
    intro Ra Rb hbox hfuel
    set L := allL.filter (iB P.micro P.N Ra Rb) with hL
    have hdpass : ¬ (P.maxSplats < maxCellCount P.micro P.N L Ra Rb) := by
      have h1 : maxCellCount P.micro P.N L Ra Rb = maxCellCount P.micro P.N allL Ra Rb := by
        rw [hL]
        exact maxCellCount_filter_region P.micro P.N allL Ra Rb
      have h2 : maxCellCount P.micro P.N allL Ra Rb
          ≤ maxCellCount P.micro P.N allL (fun _ => 0) (microExt P.micro P.N) :=
        maxCellCount_sub_le P.micro P.N allL
          (fun i => ⟨Nat.zero_le _, (hbox i).2⟩)
      omega
    by_cases hok : okRegion P L Ra Rb = true
    · by_cases hlen : L.length = 0
      · have hstep : bucketRecurse P (fuel + 1) Ra Rb L = .ok [] := by
          simp only [bucketRecurse]
          rw [if_neg hdpass, if_pos hok, if_pos hlen]
        refine ⟨[], hstep, by simp, by simp, ?_⟩
        intro s hs hiB
        exfalso
        have hmem : s ∈ L := by
          rw [hL]
          exact List.mem_filter.mpr ⟨hs, hiB⟩
        rw [List.length_eq_zero.mp hlen] at hmem
        cases hmem
      · have hstep : bucketRecurse P (fuel + 1) Ra Rb L
            = .ok [mkBlock P.micro P.N Ra Rb L] := by
          simp only [bucketRecurse]
          rw [if_neg hdpass, if_pos hok, if_neg hlen]
        unfold okRegion at hok
        rw [Bool.and_eq_true, decide_eq_true_eq, decide_eq_true_eq] at hok
        obtain ⟨hcells, hcount⟩ := hok
        refine ⟨[mkBlock P.micro P.N Ra Rb L], hstep, ?_,
          List.pairwise_singleton _ _, ?_⟩
        · intro B hB
          rw [List.mem_singleton] at hB
          subst hB
          refine ⟨⟨fun i => (hbox i).1, ?_, hcells, by
            show 0 < L.length
            omega, hcount⟩, fun i => ⟨le_refl _, le_refl _⟩⟩
          show mkBlock P.micro P.N Ra Rb L
            = mkBlock P.micro P.N Ra Rb (allL.filter (iB P.micro P.N Ra Rb))
          rw [hL]
        · intro s hs hiB
          exact ⟨mkBlock P.micro P.N Ra Rb L, by simp, hiB⟩
    · -- subdivision case
      have hml : 2 ≤ maxExt Ra Rb := by
        by_contra hcon
        push_neg at hcon
        apply hok
        have hext : ∀ i, Rb i = Ra i + 1 := by
          intro i
          have h1 := (hbox i).1
          have h2 := sub_le_maxExt Ra Rb i
          omega
        unfold okRegion
        rw [Bool.and_eq_true, decide_eq_true_eq, decide_eq_true_eq]
        constructor
        · intro i
          unfold cellsOfBox
          rw [hext i]
          have hmin : min ((Ra i + 1) * P.micro) (P.N i) ≤ (Ra i + 1) * P.micro :=
            min_le_left _ _
          have h4 : (Ra i + 1) * P.micro = Ra i * P.micro + P.micro := by ring
          omega
        · have h1 : L.length = countIn P.micro P.N allL Ra Rb := by
            rw [hL]
            unfold countIn
            rw [List.countP_eq_length_filter]
          have hRbeq : Rb = fun i => Ra i + 1 := funext hext
          have h2 : countIn P.micro P.N allL Ra Rb = cellCount P.micro P.N allL Ra := by
            unfold cellCount
            rw [hRbeq]
          have h3 : cellCount P.micro P.N allL Ra
              ≤ maxCellCount P.micro P.N allL (fun _ => 0) (microExt P.micro P.N) :=
            cellCount_le_maxCellCount allL
              (fun i => ⟨Nat.zero_le _, lt_of_lt_of_le (hRbeq ▸ (hbox i).1) (hbox i).2⟩)
          omega
      set lam := SplatTree.bitLen (maxExt Ra Rb - 1) with hlam
      have hlam1 : 1 ≤ lam := by
        rw [hlam]
        exact SplatTree.bitLen_pos _ (by omega)
      have hlam2 : maxExt Ra Rb ≤ 2 ^ lam := by
        have h := (SplatTree.bitLen_le_iff (maxExt Ra Rb - 1) lam).mp (le_of_eq hlam.symm)
        omega
      have hlam3 : 2 ^ (lam - 1) < maxExt Ra Rb := by
        by_contra hcon
        push_neg at hcon
        have h := (SplatTree.bitLen_le_iff (maxExt Ra Rb - 1) (lam - 1)).mpr (by omega)
        omega
      set regs := octOffsets.flatMap fun d =>
        selNode P L L.length Rb (lam - 1) (fun i => Ra i + d i * 2 ^ (lam - 1)) with hregs
      have hREG : ∀ r ∈ regs,
          (∀ i, Ra i ≤ r.1 i ∧ r.1 i < r.2 i ∧ r.2 i ≤ Rb i)
            ∧ maxExt r.1 r.2 ≤ fuel := by
        intro r hr
        rw [hregs] at hr
        obtain ⟨d, hd, hrd⟩ := List.mem_flatMap.mp hr
        obtain ⟨g1, g2, g3, g4⟩ := selNode_mem P L L.length Rb (lam - 1) _ r hrd
        constructor
        · intro i
          exact ⟨le_trans (Nat.le_add_right _ _) (g1 i), g2 i,
            le_trans (g3 i) (min_le_right _ _)⟩
        · have hside : ∀ i, r.2 i - r.1 i ≤ 2 ^ (lam - 1) := by
            intro i
            have h3 : r.2 i ≤ Ra i + d i * 2 ^ (lam - 1) + 2 ^ (lam - 1) :=
              le_trans (g3 i) (min_le_left _ _)
            have h1 : Ra i + d i * 2 ^ (lam - 1) ≤ r.1 i := g1 i
            have hpw : 1 ≤ 2 ^ (lam - 1) := Nat.one_le_two_pow
            omega
          have hs0 := hside 0
          have hs1 := hside 1
          have hs2 := hside 2
          have hlt : 2 ^ (lam - 1) ≤ fuel := by
            have h6 := hlam3
            have h7 := hfuel
            have hpw : 1 ≤ 2 ^ (lam - 1) := Nat.one_le_two_pow
            unfold maxExt at h7
            omega
          unfold maxExt
          omega
      have hfeq : ∀ r ∈ regs, L.filter (iB P.micro P.N r.1 r.2)
          = allL.filter (iB P.micro P.N r.1 r.2) := by
        intro r hr
        rw [hL]
        exact filter_iB_sub allL (fun i =>
          ⟨((hREG r hr).1 i).1, ((hREG r hr).1 i).2.2⟩)
      obtain ⟨bss, hbss, hBp, hBpw, hBcov⟩ :=
        mapME_regs P allL fuel
          (fun r h1 h2 => ih r.1 r.2 h1 h2)
          regs
          (fun r hr => ⟨fun i => ⟨((hREG r hr).1 i).2.1,
            le_trans ((hREG r hr).1 i).2.2 (hbox i).2⟩, (hREG r hr).2⟩)
          (by rw [hregs]; exact selChildren_pairwise P L L.length Rb (lam - 1) Ra)
      have hmeq : mapME (fun r => bucketRecurse P fuel r.1 r.2
            (L.filter (iB P.micro P.N r.1 r.2))) regs = .ok bss := by
        rw [mapME_congr _ (fun r => bucketRecurse P fuel r.1 r.2
          (allL.filter (iB P.micro P.N r.1 r.2))) regs
          (fun r hr => by rw [hfeq r hr])]
        exact hbss
      have hstep : bucketRecurse P (fuel + 1) Ra Rb L = .ok bss.flatten := by
        simp only [bucketRecurse]
        rw [if_neg hdpass, if_neg hok, ← hlam, ← hregs, hmeq]
      refine ⟨bss.flatten, hstep, ?_, hBpw, ?_⟩
      · intro B hB
        obtain ⟨g, r, hr, hsub⟩ := hBp B hB
        exact ⟨g, fun i => ⟨le_trans ((hREG r hr).1 i).1 (hsub i).1,
          le_trans (hsub i).2 ((hREG r hr).1 i).2.2⟩⟩
      · intro s hs hiB
        obtain ⟨m, hm, hcell⟩ := exists_cell_3d hμ (fun i => (hbox i).1) s (hvv s hs) hiB
        have hcc : 1 ≤ cellCount P.micro P.N L m := by
          unfold cellCount countIn
          have hpos : 0 < L.countP (iB P.micro P.N m fun i => m i + 1) :=
            List.countP_pos_iff.mpr
              ⟨s, by rw [hL]; exact List.mem_filter.mpr ⟨hs, hiB⟩, hcell⟩
          omega
        have hchild : ∃ d : V3 ℕ, (∀ i, d i ≤ 1)
            ∧ ∀ i, Ra i + d i * 2 ^ (lam - 1) ≤ m i
              ∧ m i < min (Ra i + d i * 2 ^ (lam - 1) + 2 ^ (lam - 1)) (Rb i) := by
          refine ⟨fun i => if m i < Ra i + 2 ^ (lam - 1) then 0 else 1,
            fun i => ?_, fun i => ?_⟩
          · dsimp only
            split <;> omega
          · have h1 := (hm i).1
            have h2 := (hm i).2
            have hext : Rb i - Ra i ≤ maxExt Ra Rb := sub_le_maxExt Ra Rb i
            have hp : 2 ^ lam = 2 ^ (lam - 1) * 2 := by
              rw [← pow_succ]
              congr 1
              omega
            have hpw : 1 ≤ 2 ^ (lam - 1) := Nat.one_le_two_pow
            dsimp only
            by_cases hmi : m i < Ra i + 2 ^ (lam - 1)
            · rw [if_pos hmi]
              exact ⟨by omega, lt_min (by omega) h2⟩
            · rw [if_neg hmi]
              push_neg at hmi
              exact ⟨by omega, lt_min (by omega) h2⟩
        obtain ⟨d, hdle, hdm⟩ := hchild
        obtain ⟨r, hr, hrm⟩ := selNode_cover P L L.length Rb (lam - 1)
          (fun i => Ra i + d i * 2 ^ (lam - 1)) m (fun i => hdm i) hcc
        have hrregs : r ∈ regs := by
          rw [hregs]
          exact List.mem_flatMap.mpr ⟨d, mem_octOffsets_of_le d hdle, hr⟩
        have hiBr : iB P.micro P.N r.1 r.2 s = true :=
          iB_mono (fun i => ⟨(hrm i).1, by
              have h2 := (hrm i).2
              show m i + 1 ≤ r.2 i
              omega⟩) hcell
        exact hBcov s hs r hrregs hiBr

end Bucket

namespace Bucket

theorem mem_allIds {files : List (List Splat)} {id : SplatId} :
    id ∈ allIds files ↔ id.1 < files.length ∧ id.2 < (files.getD id.1 []).length := by
  unfold allIds
  rw [List.mem_flatMap]
  constructor
  · rintro ⟨sc, hsc, hid⟩
    obtain ⟨ix, hix, rfl⟩ := List.mem_map.mp hid
    rw [List.mem_range] at hsc
    rw [List.mem_range] at hix
    exact ⟨hsc, hix⟩
  · rintro ⟨h1, h2⟩
    refine ⟨id.1, List.mem_range.mpr h1, List.mem_map.mpr ⟨id.2, List.mem_range.mpr h2, ?_⟩⟩
    exact Prod.mk.eta

theorem mkInfos_vlo_le_vhi (files : List (List Splat)) (g : Grid)
    (hspace : 0 < g.spacing)
    (hrad : ∀ f ∈ files, ∀ sp ∈ f, 0 ≤ sp.radius) :
    ∀ s ∈ mkInfos files g, ∀ i, s.vlo i ≤ s.vhi i := by
  intro s hs i
  unfold mkInfos at hs
  obtain ⟨id, hid, rfl⟩ := List.mem_map.mp hs
  obtain ⟨h1, h2⟩ := mem_allIds.mp hid
  have hmem1 : files.getD id.1 [] ∈ files := by
    rw [List.getD_eq_getElem _ _ h1]
    exact List.getElem_mem h1
  have hmem2 : splatOf files id ∈ files.getD id.1 [] := by
    unfold splatOf
    rw [List.getD_eq_getElem _ _ h2]
    exact List.getElem_mem h2
  have hr : 0 ≤ (splatOf files id).radius := hrad _ hmem1 _ hmem2
  unfold infoOf
  dsimp only
  have hdiv : ((splatOf files id).pos i - (splatOf files id).radius - g.ref i) / g.spacing
      ≤ ((splatOf files id).pos i + (splatOf files id).radius - g.ref i) / g.spacing :=
    (div_le_div_right hspace).mpr (by linarith)
  exact sub_le_sub_right hdiv _

/-- The claim's world-space predicate: the splat's axis-aligned bounding cube
(side `2·radius` centred on the position, spec §3) meets the closed world box
of the sub-grid whose cell extents relative to the grid's lower corner are
`[clo, chi]` — per axis, vertex `clo` (at world coordinate
`ref + spacing·(lower + clo)`) lies at or below the cube's upper face and
vertex `chi` at or above its lower face, as checked by
`TestBucket::validate`. -/
def cubeMeets (g : Grid) (sp : Splat) (clo chi : V3 ℕ) : Prop :=
  ∀ i, g.ref i + g.spacing * ((g.lower i : ℚ) + (clo i : ℚ)) ≤ sp.pos i + sp.radius
    ∧ sp.pos i - sp.radius ≤ g.ref i + g.spacing * ((g.lower i : ℚ) + (chi i : ℚ))

instance (g : Grid) (sp : Splat) (clo chi : V3 ℕ) : Decidable (cubeMeets g sp clo chi) := by
  unfold cubeMeets
  infer_instance

theorem iB_iff_cubeMeets (g : Grid) (sp : Splat) (sc ix : ℕ) (hspace : 0 < g.spacing)
    (μ : ℕ) (a b : V3 ℕ) :
    iB μ (fun i => g.numCells i) a b (infoOf g sc ix sp) = true
      ↔ cubeMeets g sp (fun i => a i * μ) (fun i => min (b i * μ) (g.numCells i)) := by
  unfold iB infoOf cubeMeets
  rw [decide_eq_true_eq]
  refine forall_congr' fun i => and_congr ?_ ?_
  · dsimp only
    rw [le_sub_iff_add_le, le_div_iff hspace]
    constructor <;> intro h <;> nlinarith [h, hspace]
  · dsimp only
    rw [sub_le_iff_le_add, div_le_iff hspace]
    constructor <;> intro h <;> nlinarith [h, hspace]

theorem bool_eq_decide (b : Bool) (p : Prop) [Decidable p] (h : b = true ↔ p) :
    b = decide p := by
  cases b
  · have hnp : ¬ p := fun hp => by simpa using h.mpr hp
    simp [hnp]
  · simp [h.mp rfl]

theorem selNode_nil (P : BParams) (total : ℕ) (bUp : V3 ℕ) :
    ∀ (lvl : ℕ) (c : V3 ℕ), selNode P [] total bUp lvl c = [] := by
  intro lvl
  cases lvl with
  | zero =>
    intro c
    unfold selNode
    split
    · dsimp only
      rw [if_pos]
      rfl
    · rfl
  | succ l =>
    intro c
    unfold selNode
    split
    · dsimp only
      rw [if_pos]
      rfl
    · rfl

theorem bucketRecurse_nil (P : BParams) (fuel : ℕ) (Ra Rb : V3 ℕ) :
    bucketRecurse P (fuel + 1) Ra Rb [] = .ok [] := by
  have hmax : maxCellCount P.micro P.N ([] : List SInfo) Ra Rb = 0 := by
    unfold maxCellCount
    have h : ∀ l : List (V3 ℕ),
        (l.map (cellCount P.micro P.N ([] : List SInfo))).foldr max 0 = 0 := by
      intro l
      induction l with
      | nil => rfl
      | cons m l ih =>
        simp only [List.map_cons, List.foldr_cons, ih]
        unfold cellCount countIn
        simp
    exact h _
  simp only [bucketRecurse]
  rw [hmax]
  rw [if_neg (by omega)]
  by_cases hok : okRegion P ([] : List SInfo) Ra Rb = true
  · rw [if_pos hok]
    simp
  · rw [if_neg hok]
    have hregs : (octOffsets.flatMap fun d =>
        selNode P ([] : List SInfo) (List.length ([] : List SInfo)) Rb
          (SplatTree.bitLen (maxExt Ra Rb - 1) - 1)
          (fun i => Ra i + d i * 2 ^ (SplatTree.bitLen (maxExt Ra Rb - 1) - 1)))
        = [] := by
      rw [List.flatMap_eq_nil_iff]
      intro d _
      exact selNode_nil P _ Rb _ _
    rw [hregs]
    rfl

end Bucket

namespace Bucket

theorem bucketTop_density_error (allL : List SInfo) (g : Grid)
    (mS mC mSp : ℕ) (hmS : 0 < mS) (hmC : 0 < mC)
    (h : mS < maxCellCount 1 (fun i => g.numCells i) allL (fun _ => 0)
      (microExt 1 (fun i => g.numCells i))) :
    bucketTop allL g mS mC mSp = .error (.densityError
      (maxCellCount 1 (fun i => g.numCells i) allL (fun _ => 0)
        (microExt 1 (fun i => g.numCells i)))) := by
  unfold bucketTop
  rw [if_pos ⟨hmS, hmC⟩]
  dsimp only
  simp only [bucketRecurse]
  rw [maxCellCount_filter_region]
  rw [if_pos h]

theorem bucketTop_ok (allL : List SInfo) (g : Grid) (mS mC mSp : ℕ)
    (hmS : 0 < mS) (hmC : 0 < mC) (hN : ∀ i : Fin 3, 0 < g.numCells i)
    (hvv : ∀ s ∈ allL, ∀ i, s.vlo i ≤ s.vhi i)
    (hdens : maxCellCount 1 (fun i => g.numCells i) allL (fun _ => 0)
      (microExt 1 (fun i => g.numCells i)) ≤ mS) :
    ∃ bs, bucketTop allL g mS mC mSp = .ok bs
      ∧ (∀ B ∈ bs, GoodB ⟨fun i => g.numCells i, 1, mS, mC, mSp⟩ allL B
          ∧ (∀ i, B.b i ≤ microExt 1 (fun i => g.numCells i) i))
      ∧ bs.Pairwise blockDisj
      ∧ (∀ s ∈ allL, iB 1 (fun i => g.numCells i) (fun _ => 0)
            (microExt 1 (fun i => g.numCells i)) s = true →
          ∃ B ∈ bs, iB 1 (fun i => g.numCells i) B.a B.b s = true) := by
  have hbox : ∀ i : Fin 3, (fun _ : Fin 3 => 0) i < microExt 1 (fun i => g.numCells i) i
      ∧ microExt 1 (fun i => g.numCells i) i ≤ microExt 1 (fun i => g.numCells i) i := by
    intro i
    refine ⟨?_, le_rfl⟩
    exact (lt_microExt_iff (fun i => g.numCells i) Nat.one_pos i 0).mpr
      (by rw [zero_mul]; exact hN i)
  obtain ⟨bs, hbs, h1, h2, h3⟩ :=
    bucketRecurse_master ⟨fun i => g.numCells i, 1, mS, mC, mSp⟩ allL Nat.one_pos hmC hvv hdens
      (maxExt (fun _ => 0) (microExt 1 (fun i => g.numCells i)) + 1)
      (fun _ => 0) (microExt 1 (fun i => g.numCells i)) hbox (Nat.le_succ _)
  refine ⟨bs, ?_, ?_, h2, ?_⟩
  · unfold bucketTop
    rw [if_pos ⟨hmS, hmC⟩]
    dsimp only
    exact hbs
  · intro B hB
    exact ⟨(h1 B hB).1, fun i => ((h1 B hB).2 i).2⟩
  · intro s hs hiB
    exact h3 s hs hiB

/-- Claim C3: `bucket(splats, bbox, maxSplats, maxCells, maxSplit, sink)`
raises `DensityError(c)` if and only if `c` exceeds `maxSplats` and equals
the worst per-cell splat count of the bucketing grid (so the carried count
is the worst offender); whenever no single grid cell is covered by more than
`maxSplats` splats the operation completes (returns its buckets), and with
zero input splats it completes emitting no buckets. -/
theorem bucket_density_spec (files : List (List Splat)) (g : Grid)
    (maxSplats maxCells maxSplit : ℕ)
    (hspace : 0 < g.spacing)
    (hrad : ∀ f ∈ files, ∀ sp ∈ f, 0 ≤ sp.radius)
    (hN : ∀ i : Fin 3, 0 < g.numCells i)
    (hmS : 0 < maxSplats) (hmC : 0 < maxCells) :
    (∀ c, bucket files g maxSplats maxCells maxSplit = .error (.densityError c)
        ↔ (maxSplats < c ∧ c = densityMax files g))
      ∧ (densityMax files g ≤ maxSplats →
          ∃ bs, bucket files g maxSplats maxCells maxSplit = .ok bs)
      ∧ ((∀ f ∈ files, f = []) →
          bucket files g maxSplats maxCells maxSplit = .ok []) := by
  have hvv := mkInfos_vlo_le_vhi files g hspace hrad
  refine ⟨?_, ?_, ?_⟩
  · intro c
    constructor
    · intro h
      by_cases hd : densityMax files g ≤ maxSplats
      · obtain ⟨bs, hbs, _⟩ :=
          bucketTop_ok (mkInfos files g) g _ _ maxSplit hmS hmC hN hvv hd
        unfold bucket at h
        rw [hbs] at h
        exact Except.noConfusion h
      · push_neg at hd
        have herr := bucketTop_density_error (mkInfos files g) g _ _ maxSplit hmS hmC hd
        unfold bucket at h
        rw [herr] at h
        injection h with h'
        injection h' with h''
        unfold densityMax at hd
        refine ⟨by omega, ?_⟩
        unfold densityMax
        omega
    · rintro ⟨h1, h2⟩
      subst h2
      have herr := bucketTop_density_error (mkInfos files g) g _ _ maxSplit hmS hmC h1
      unfold bucket
      exact herr
  · intro hd
    obtain ⟨bs, hbs, _⟩ :=
      bucketTop_ok (mkInfos files g) g _ _ maxSplit hmS hmC hN hvv hd
    exact ⟨bs, hbs⟩
  · intro hnil
    have hids : allIds files = [] := by
      rw [List.eq_nil_iff_forall_not_mem]
      intro id hid
      obtain ⟨h1, h2⟩ := mem_allIds.mp hid
      have hfe : files.getD id.1 [] = [] := by
        rw [List.getD_eq_getElem _ _ h1]
        exact hnil _ (List.getElem_mem h1)
      rw [hfe] at h2
      simp at h2
    have hmk : mkInfos files g = [] := by
      unfold mkInfos
      rw [hids]
      rfl
    unfold bucket
    rw [hmk]
    unfold bucketTop
    rw [if_pos ⟨hmS, hmC⟩]
    dsimp only
    rw [List.filter_nil]
    exact bucketRecurse_nil _ _ _ _

end Bucket

namespace Bucket

theorem block_expand (files : List (List Splat)) (g : Grid) (mC : ℕ) (B : Block)
    (hspace : 0 < g.spacing)
    (hEq : B = mkBlock mC (fun i => g.numCells i) B.a B.b
      ((mkInfos files g).filter (iB mC (fun i => g.numCells i) B.a B.b))) :
    expandRanges B.ranges = (allIds files).filter fun id =>
      decide (cubeMeets g (splatOf files id) B.cellLo B.cellHi) := by
  have hRanges : B.ranges = runCollector
      (((mkInfos files g).filter (iB mC (fun i => g.numCells i) B.a B.b)).map
        fun s => (s.scanId, s.splatId)) := congrArg Block.ranges hEq
  rw [hRanges]
  have hpw : (((mkInfos files g).filter (iB mC (fun i => g.numCells i) B.a B.b)).map
      fun s => (s.scanId, s.splatId)).Pairwise lexLt := by
    rw [List.pairwise_map]
    exact (mkInfos_pairwise files g).filter _
  rw [runCollector_expand _ hpw]
  unfold mkInfos
  rw [List.filter_map, List.map_map]
  rw [show ((fun s : SInfo => (s.scanId, s.splatId))
      ∘ fun id : SplatId => infoOf g id.1 id.2 (splatOf files id)) = id from
    funext fun id => rfl]
  rw [List.map_id]
  refine List.filter_congr ?_
  intro id hid
  have hLo : B.cellLo = fun i => B.a i * mC := congrArg Block.cellLo hEq
  have hHi : B.cellHi = fun i => min (B.b i * mC) (g.numCells i) := congrArg Block.cellHi hEq
  rw [hLo, hHi]
  exact bool_eq_decide _ _
    (iB_iff_cubeMeets g (splatOf files id) id.1 id.2 hspace mC B.a B.b)

/-- Claim C2: on every input on which `bucket` succeeds, each emitted bucket
covers at most `maxCells` grid cells per axis, holds between 1 and
`maxSplats` splats, and no two emitted buckets' grids intersect (as in
`gridsIntersect` of `TestBucket::validate`: some axis separates their cell
extents). -/
theorem bucket_bounds_spec (files : List (List Splat)) (g : Grid)
    (maxSplats maxCells maxSplit : ℕ) (bs : List Block)
    (hspace : 0 < g.spacing)
    (hrad : ∀ f ∈ files, ∀ sp ∈ f, 0 ≤ sp.radius)
    (hN : ∀ i : Fin 3, 0 < g.numCells i)
    (hok : bucket files g maxSplats maxCells maxSplit = .ok bs) :
    (∀ B ∈ bs, (∀ i, B.cellHi i - B.cellLo i ≤ maxCells)
        ∧ B.numSplats ≤ maxSplats ∧ 0 < B.numSplats)
      ∧ bs.Pairwise (fun B1 B2 =>
          ∃ i, B1.cellHi i ≤ B2.cellLo i ∨ B2.cellHi i ≤ B1.cellLo i) := by
  have hval : 0 < maxSplats ∧ 0 < maxCells := by
    by_contra hcon
    unfold bucket bucketTop at hok
    rw [if_neg hcon] at hok
    exact Except.noConfusion hok
  have hvv := mkInfos_vlo_le_vhi files g hspace hrad
  have hd : densityMax files g ≤ maxSplats := by
    by_contra hdc
    push_neg at hdc
    have herr := bucketTop_density_error (mkInfos files g) g _ _ maxSplit hval.1 hval.2 hdc
    unfold bucket at hok
    rw [herr] at hok
    exact Except.noConfusion hok
  obtain ⟨bs', hbs', hprops, hpw, _⟩ :=
    bucketTop_ok (mkInfos files g) g _ _ maxSplit hval.1 hval.2 hN hvv hd
  unfold bucket at hok
  rw [hbs'] at hok
  injection hok with heq
  subst heq
  constructor
  · intro B hB
    obtain ⟨⟨hab, hEq, hcells, hc1, hc2⟩, _⟩ := hprops B hB
    refine ⟨fun i => ?_, hc2, hc1⟩
    have eLo : B.cellLo i = B.a i * 1 :=
      congrFun (congrArg Block.cellLo hEq) i
    have eHi : B.cellHi i = min (B.b i * 1) (g.numCells i) :=
      congrFun (congrArg Block.cellHi hEq) i
    rw [eLo, eHi]
    exact hcells i
  · refine List.Pairwise.imp_of_mem ?_ hpw
    intro B1 B2 h1 h2 hdisj
    obtain ⟨i, hd'⟩ := hdisj
    have hEq1 := ((hprops B1 h1).1).2.1
    have hEq2 := ((hprops B2 h2).1).2.1
    refine ⟨i, ?_⟩
    rcases hd' with h | h
    · left
      have e1 : B1.cellHi i = min (B1.b i * 1) (g.numCells i) :=
        congrFun (congrArg Block.cellHi hEq1) i
      have e2 : B2.cellLo i = B2.a i * 1 :=
        congrFun (congrArg Block.cellLo hEq2) i
      rw [e1, e2]
      exact le_trans (min_le_left _ _) (Nat.mul_le_mul_right _ h)
    · right
      have e1 : B2.cellHi i = min (B2.b i * 1) (g.numCells i) :=
        congrFun (congrArg Block.cellHi hEq2) i
      have e2 : B1.cellLo i = B1.a i * 1 :=
        congrFun (congrArg Block.cellLo hEq1) i
      rw [e1, e2]
      exact le_trans (min_le_left _ _) (Nat.mul_le_mul_right _ h)

/-- Claim C1: on every input on which `bucket` succeeds, each emitted
bucket's Range list covers exactly those splats whose axis-aligned bounding
cube (side `2·radius` centred on the position) meets that bucket's sub-grid
(in stream order), and every splat whose cube meets the enclosing grid
appears in at least one emitted bucket — in every bucket whose grid its cube
meets, so splats straddling several buckets appear in each of them. -/
theorem bucket_coverage_spec (files : List (List Splat)) (g : Grid)
    (maxSplats maxCells maxSplit : ℕ) (bs : List Block)
    (hspace : 0 < g.spacing)
    (hrad : ∀ f ∈ files, ∀ sp ∈ f, 0 ≤ sp.radius)
    (hN : ∀ i : Fin 3, 0 < g.numCells i)
    (hok : bucket files g maxSplats maxCells maxSplit = .ok bs) :
    (∀ B ∈ bs, expandRanges B.ranges = (allIds files).filter fun id =>
        decide (cubeMeets g (splatOf files id) B.cellLo B.cellHi))
      ∧ (∀ id ∈ allIds files,
          cubeMeets g (splatOf files id) (fun _ => 0) (fun i => g.numCells i) →
          ∃ B ∈ bs, id ∈ expandRanges B.ranges) := by
  have hval : 0 < maxSplats ∧ 0 < maxCells := by
    by_contra hcon
    unfold bucket bucketTop at hok
    rw [if_neg hcon] at hok
    exact Except.noConfusion hok
  have hvv := mkInfos_vlo_le_vhi files g hspace hrad
  have hd : densityMax files g ≤ maxSplats := by
    by_contra hdc
    push_neg at hdc
    have herr := bucketTop_density_error (mkInfos files g) g _ _ maxSplit hval.1 hval.2 hdc
    unfold bucket at hok
    rw [herr] at hok
    exact Except.noConfusion hok
  obtain ⟨bs', hbs', hprops, _, hcov⟩ :=
    bucketTop_ok (mkInfos files g) g _ _ maxSplit hval.1 hval.2 hN hvv hd
  unfold bucket at hok
  rw [hbs'] at hok
  injection hok with heq
  subst heq
  constructor
  · intro B hB
    exact block_expand files g 1 B hspace ((hprops B hB).1).2.1
  · intro id hid hcube
    have hsmem : infoOf g id.1 id.2 (splatOf files id) ∈ mkInfos files g := by
      unfold mkInfos
      exact List.mem_map.mpr ⟨id, hid, rfl⟩
    have hiB0 : iB 1 (fun i => g.numCells i) (fun _ => 0)
        (microExt 1 (fun i => g.numCells i))
        (infoOf g id.1 id.2 (splatOf files id)) = true := by
      rw [iB_iff_cubeMeets g (splatOf files id) id.1 id.2 hspace 1 _ _]
      have h1 : (fun i : Fin 3 => (fun _ : Fin 3 => 0) i * 1)
          = (fun _ : Fin 3 => 0) := by
        funext i
        exact zero_mul _
      have h2 : (fun i => min (microExt 1 (fun i => g.numCells i) i * 1)
            (g.numCells i)) = fun i => g.numCells i := by
        funext i
        exact min_eq_right (le_microExt_mul (fun i => g.numCells i) Nat.one_pos i)
      rw [h1, h2]
      exact hcube
    obtain ⟨B, hB, hiBB⟩ := hcov _ hsmem hiB0
    refine ⟨B, hB, ?_⟩
    rw [block_expand files g 1 B hspace ((hprops B hB).1).2.1]
    rw [List.mem_filter]
    refine ⟨hid, ?_⟩
    rw [decide_eq_true_eq]
    have hLo : B.cellLo = fun i => B.a i * 1 :=
      congrArg Block.cellLo ((hprops B hB).1).2.1
    have hHi : B.cellHi = fun i => min (B.b i * 1) (g.numCells i) :=
      congrArg Block.cellHi ((hprops B hB).1).2.1
    rw [hLo, hHi]
    exact (iB_iff_cubeMeets g (splatOf files id) id.1 id.2 hspace 1 B.a B.b).mp hiBB

end Bucket

namespace Bucket

theorem v3_ext {α : Type} {m n : V3 α} (h0 : m 0 = n 0) (h1 : m 1 = n 1)
    (h2 : m 2 = n 2) : m = n := by
  funext i
  fin_cases i
  · exact h0
  · exact h1
  · exact h2

/-- The data of a block as a flat list of naturals (the per-axis functions
evaluated at the three axes) together with its ranges; it determines the
block. -/
def Block.eqKey (B : Block) : List ℕ × List Range :=
  ([B.a 0, B.a 1, B.a 2, B.b 0, B.b 1, B.b 2,
    B.cellLo 0, B.cellLo 1, B.cellLo 2, B.cellHi 0, B.cellHi 1, B.cellHi 2,
    B.numSplats], B.ranges)

instance : DecidableEq Block := fun B1 B2 =>
  decidable_of_iff (Block.eqKey B1 = Block.eqKey B2) (by
    unfold Block.eqKey
    simp only [Prod.mk.injEq, List.cons.injEq, and_true]
    constructor
    · rintro ⟨⟨ha0, ha1, ha2, hb0, hb1, hb2, hl0, hl1, hl2, hh0, hh1, hh2, hn⟩, hr⟩
      cases B1
      cases B2
      simp only [Block.mk.injEq]
      exact ⟨v3_ext ha0 ha1 ha2, v3_ext hb0 hb1 hb2, v3_ext hl0 hl1 hl2,
        v3_ext hh0 hh1 hh2, hn, hr⟩
    · intro h
      rw [h]
      simp)

/-- Witness splat: centred at `(1, 1, 1)` with radius `1`, cube `[0, 2]³`. -/
def splatWB : Splat := ⟨fun _ => 1, fun _ => 0, 1⟩

/-- Witness splat source: one scan holding `splatWB`. -/
def filesW : List (List Splat) := [[splatWB]]

/-- Witness splat source with two coincident splats (density 2). -/
def filesW2 : List (List Splat) := [[splatWB, splatWB]]

/-- Witness grid: reference `0`, spacing `1`, cells `[0, 4)` per axis. -/
def gridWB : Grid := ⟨fun _ => 0, 1, fun _ => 0, fun _ => 4⟩

/-- One witness block: octant `(x, y, z)` of the witness grid (2 cells per
axis; the micro-cell is a single grid cell), holding the single splat. -/
def bW (x y z : ℕ) : Block :=
  ⟨![2 * x, 2 * y, 2 * z], ![2 * x + 2, 2 * y + 2, 2 * z + 2], ![2 * x, 2 * y, 2 * z],
   ![2 * x + 2, 2 * y + 2, 2 * z + 2], 1, [⟨0, 1, 0⟩]⟩

/-- The buckets `bucket filesW gridWB 1 2 8` emits: all eight octants (the
splat's closed cube touches every one), in Morton order. -/
def blocksW : List Block :=
  [bW 0 0 0, bW 1 0 0, bW 0 1 0, bW 1 1 0, bW 0 0 1, bW 1 0 1, bW 0 1 1, bW 1 1 1]

theorem mkInfos_filesW : mkInfos filesW gridWB = [⟨0, 0, fun _ => 0, fun _ => 2⟩] := by
  have h1 : mkInfos filesW gridWB = [infoOf gridWB 0 0 (splatOf filesW (0, 0))] := rfl
  rw [h1]
  have hlo : (fun i : Fin 3 => ((splatOf filesW (0, 0)).pos i
      - (splatOf filesW (0, 0)).radius - gridWB.ref i) / gridWB.spacing
        - (gridWB.lower i : ℚ)) = fun _ : Fin 3 => (0 : ℚ) := by
    funext i
    show ((1 : ℚ) - 1 - 0) / 1 - ((0 : ℤ) : ℚ) = 0
    norm_num
  have hhi : (fun i : Fin 3 => ((splatOf filesW (0, 0)).pos i
      + (splatOf filesW (0, 0)).radius - gridWB.ref i) / gridWB.spacing
        - (gridWB.lower i : ℚ)) = fun _ : Fin 3 => (2 : ℚ) := by
    funext i
    show ((1 : ℚ) + 1 - 0) / 1 - ((0 : ℤ) : ℚ) = 2
    norm_num
  unfold infoOf
  rw [hlo, hhi]

set_option maxRecDepth 10000 in
theorem bucketW_ok : bucket filesW gridWB 1 2 8 = .ok blocksW := by
  unfold bucket
  rw [mkInfos_filesW]
  decide

/-- Witness for claim C1 at the one-splat session `filesW` / `gridWB` with
`maxSplats = 1`, `maxCells = 2`, `maxSplit = 8`: the emitted blocks are the
eight octants and the theorem's exactness and coverage conclusions hold for
them. -/
theorem bucket_coverage_spec_witness :
    (∀ B ∈ blocksW, expandRanges B.ranges = (allIds filesW).filter fun id =>
        decide (cubeMeets gridWB (splatOf filesW id) B.cellLo B.cellHi))
      ∧ (∀ id ∈ allIds filesW,
          cubeMeets gridWB (splatOf filesW id) (fun _ => 0) (fun i => gridWB.numCells i) →
          ∃ B ∈ blocksW, id ∈ expandRanges B.ranges) :=
  bucket_coverage_spec filesW gridWB 1 2 8 blocksW (by decide) (by decide)
    (by decide) bucketW_ok

/-- Witness for claim C2 at the same session: every octant block is within
both budgets, non-empty, and the eight blocks are pairwise grid-disjoint. -/
theorem bucket_bounds_spec_witness :
    (∀ B ∈ blocksW, (∀ i, B.cellHi i - B.cellLo i ≤ 2)
        ∧ B.numSplats ≤ 1 ∧ 0 < B.numSplats)
      ∧ blocksW.Pairwise (fun B1 B2 =>
          ∃ i, B1.cellHi i ≤ B2.cellLo i ∨ B2.cellHi i ≤ B1.cellLo i) :=
  bucket_bounds_spec filesW gridWB 1 2 8 blocksW (by decide) (by decide)
    (by decide) bucketW_ok

/-- Witness for claim C3 at the two-coincident-splat session `filesW2` (every
grid cell the cube touches is covered by 2 splats, `maxSplats = 1`): the
density law holds there. -/
theorem bucket_density_spec_witness :
    (∀ c, bucket filesW2 gridWB 1 2 8 = .error (.densityError c)
        ↔ (1 < c ∧ c = densityMax filesW2 gridWB))
      ∧ (densityMax filesW2 gridWB ≤ 1 →
          ∃ bs, bucket filesW2 gridWB 1 2 8 = .ok bs)
      ∧ ((∀ f ∈ filesW2, f = []) → bucket filesW2 gridWB 1 2 8 = .ok []) :=
  bucket_density_spec filesW2 gridWB 1 2 8 (by decide) (by decide) (by decide)
    (by decide) (by decide)

end Bucket
